import Mathlib

/-!
Verification of the versioned template store of the promptdepot repository
(`src/promptdepot/stores/local.py` over the data model of
`src/promptdepot/stores/core.py`).

The filesystem is modelled as a pair of finite lists (directories and files),
semantic versions follow the grammar and precedence rules of the python
`semver` library used through `pydantic_extra_types.semantic_version`, and
each store operation is a pure function from a store configuration and a
filesystem state to a result.  YAML serialization of the metadata record is
modelled at the document level: `yaml.safe_dump`/`yaml.safe_load` are a
faithful pair between documents and their textual form, while a text that is
not parseable YAML at all is represented by a dedicated file-content
constructor.
-/

set_option maxRecDepth 4000
set_option linter.unusedVariables false

namespace PromptDepot

/-! ## Decimal digits, mirroring Python `str` on `int` and `int` on digit strings -/

/-- Character for one decimal digit value, as in the textual form of a number. -/
def digitChar (d : Nat) : Char := Char.ofNat (48 + d)

/-- Numeric value of a decimal digit character. -/
def charVal (c : Char) : Nat := c.toNat - 48

/-- ASCII decimal digit test (the `\d` of the semver grammar). -/
def isDigitC (c : Char) : Bool := 48 ≤ c.toNat && c.toNat ≤ 57

/-- Most-significant-first decimal digits of `n`, driven by explicit fuel. -/
def decCharsAux : Nat → Nat → List Char
  | 0, _ => []
  | fuel + 1, n =>
    if n = 0 then [] else decCharsAux fuel (n / 10) ++ [digitChar (n % 10)]

/-- Decimal text of a natural number, as Python `str` renders an `int`. -/
def decChars (n : Nat) : List Char := if n = 0 then ['0'] else decCharsAux n n

/-- Value of a most-significant-first decimal digit string, as Python `int`. -/
def valChars (l : List Char) : Nat := l.foldl (fun a c => 10 * a + charVal c) 0

/-- Leading-zero test of the `0|[1-9]\d*` production: a multi-character
numeral may not start with `0`. -/
def noLeadZero (l : List Char) : Bool :=
  match l with
  | [] => true
  | [_] => true
  | c :: _ :: _ => c != '0'

theorem decCharsAux_zero (f : Nat) : decCharsAux f 0 = [] := by
  cases f <;> simp [decCharsAux]

theorem decCharsAux_fuel (n : Nat) :
    ∀ f1 f2, n ≤ f1 → n ≤ f2 → decCharsAux f1 n = decCharsAux f2 n := by
  induction n using Nat.strong_induction_on with
  | _ n ih =>
    intro f1 f2 h1 h2
    rcases Nat.eq_zero_or_pos n with rfl | hn
    · rw [decCharsAux_zero, decCharsAux_zero]
    · obtain ⟨g1, rfl⟩ : ∃ g, f1 = g + 1 :=
        ⟨f1 - 1, (Nat.succ_pred_eq_of_pos (Nat.lt_of_lt_of_le hn h1)).symm⟩
      obtain ⟨g2, rfl⟩ : ∃ g, f2 = g + 1 :=
        ⟨f2 - 1, (Nat.succ_pred_eq_of_pos (Nat.lt_of_lt_of_le hn h2)).symm⟩
      have hq : n / 10 < n := Nat.div_lt_self hn (by norm_num)
      have hg1 : n / 10 ≤ g1 := Nat.le_of_lt_succ (Nat.lt_of_lt_of_le hq h1)
      have hg2 : n / 10 ≤ g2 := Nat.le_of_lt_succ (Nat.lt_of_lt_of_le hq h2)
      simp only [decCharsAux, Nat.pos_iff_ne_zero.mp hn, if_false]
      rw [ih (n / 10) hq g1 g2 hg1 hg2]

theorem decChars_eq_aux (n : Nat) (f : Nat) (hf : n ≤ f) (hn : n ≠ 0) :
    decCharsAux f n = decChars n := by
  rw [decChars, if_neg hn]
  exact decCharsAux_fuel n f n hf le_rfl

theorem decChars_step (n : Nat) (hn : 0 < n) :
    (10 ≤ n ∧ decChars n = decChars (n / 10) ++ [digitChar (n % 10)]) ∨
      (n < 10 ∧ decChars n = [digitChar n]) := by
  have hne : n ≠ 0 := Nat.pos_iff_ne_zero.mp hn
  obtain ⟨m, rfl⟩ : ∃ m, n = m + 1 := ⟨n - 1, (Nat.succ_pred_eq_of_pos hn).symm⟩
  rcases Nat.lt_or_ge (m + 1) 10 with hlt | hge
  · right
    refine ⟨hlt, ?_⟩
    have hdiv : (m + 1) / 10 = 0 := Nat.div_eq_of_lt hlt
    have hmod : (m + 1) % 10 = m + 1 := Nat.mod_eq_of_lt hlt
    rw [decChars, if_neg hne]
    simp only [decCharsAux, if_neg hne, hdiv, hmod, decCharsAux_zero, List.nil_append]
  · left
    refine ⟨hge, ?_⟩
    have hq : (m + 1) / 10 ≠ 0 := by
      have : 1 ≤ (m + 1) / 10 := (Nat.one_le_div_iff (by norm_num)).mpr hge
      omega
    have hqlt : (m + 1) / 10 < m + 1 := Nat.div_lt_self hn (by norm_num)
    rw [decChars, if_neg hne]
    simp only [decCharsAux, if_neg hne]
    rw [decChars_eq_aux ((m + 1) / 10) m (Nat.le_of_lt_succ hqlt) hq]

theorem valChars_append_one (xs : List Char) (c : Char) :
    valChars (xs ++ [c]) = 10 * valChars xs + charVal c := by
  simp [valChars, List.foldl_append]

theorem charVal_digitChar (d : Nat) (hd : d < 10) : charVal (digitChar d) = d := by
  interval_cases d <;> decide

theorem isDigitC_digitChar (d : Nat) (hd : d < 10) : isDigitC (digitChar d) = true := by
  interval_cases d <;> decide

theorem valChars_decChars (n : Nat) : valChars (decChars n) = n := by
  induction n using Nat.strong_induction_on with
  | _ n ih =>
    rcases Nat.eq_zero_or_pos n with rfl | hn
    · decide
    · rcases decChars_step n hn with ⟨-, h⟩ | ⟨hlt, h⟩
      · rw [h, valChars_append_one,
          ih (n / 10) (Nat.div_lt_self hn (by norm_num)),
          charVal_digitChar _ (Nat.mod_lt _ (by norm_num))]
        omega
      · rw [h]
        have : valChars [digitChar n] = charVal (digitChar n) := by
          simp [valChars]
        rw [this, charVal_digitChar _ hlt]

theorem decChars_ne_nil (n : Nat) : decChars n ≠ [] := by
  rcases Nat.eq_zero_or_pos n with rfl | hn
  · decide
  · rcases decChars_step n hn with ⟨-, h⟩ | ⟨-, h⟩ <;> simp [h]

theorem decChars_all_digit (n : Nat) : ∀ c ∈ decChars n, isDigitC c = true := by
  induction n using Nat.strong_induction_on with
  | _ n ih =>
    rcases Nat.eq_zero_or_pos n with rfl | hn
    · decide
    · rcases decChars_step n hn with ⟨-, h⟩ | ⟨hlt, h⟩
      · rw [h]
        intro c hc
        rcases List.mem_append.mp hc with hc | hc
        · exact ih (n / 10) (Nat.div_lt_self hn (by norm_num)) c hc
        · rcases List.mem_singleton.mp hc with rfl
          exact isDigitC_digitChar _ (Nat.mod_lt _ (by norm_num))
      · rw [h]
        intro c hc
        rcases List.mem_singleton.mp hc with rfl
        exact isDigitC_digitChar _ hlt

theorem digitChar_ne_zero_char (d : Nat) (hd : d < 10) (hne : d ≠ 0) :
    digitChar d ≠ '0' := by
  interval_cases d <;> simp_all <;> decide

theorem decChars_head_ne_zero (n : Nat) (hn : n ≠ 0) :
    ∃ c cs, decChars n = c :: cs ∧ c ≠ '0' := by
  induction n using Nat.strong_induction_on with
  | _ n ih =>
    rcases decChars_step n (Nat.pos_iff_ne_zero.mpr hn) with ⟨h10, h⟩ | ⟨hlt, h⟩
    · have hq : n / 10 ≠ 0 := by
        have : 1 ≤ n / 10 := (Nat.one_le_div_iff (by norm_num)).mpr h10
        omega
      obtain ⟨c, cs, hcs, hc⟩ :=
        ih (n / 10) (Nat.div_lt_self (Nat.pos_iff_ne_zero.mpr hn) (by norm_num)) hq
      exact ⟨c, cs ++ [digitChar (n % 10)], by rw [h, hcs]; simp, hc⟩
    · exact ⟨digitChar n, [], by rw [h], digitChar_ne_zero_char n hlt hn⟩

theorem noLeadZero_decChars (n : Nat) : noLeadZero (decChars n) = true := by
  rcases Nat.eq_zero_or_pos n with rfl | hn
  · decide
  · obtain ⟨c, cs, hcs, hc⟩ := decChars_head_ne_zero n (Nat.pos_iff_ne_zero.mp hn)
    rw [hcs]
    cases cs with
    | nil => rfl
    | cons d ds => simp [noLeadZero, hc]

theorem digitChar_charVal (c : Char) (hc : isDigitC c = true) :
    digitChar (charVal c) = c := by
  have hb : 48 ≤ c.toNat ∧ c.toNat ≤ 57 := by
    simpa [isDigitC] using hc
  have : 48 + (c.toNat - 48) = c.toNat := by omega
  rw [digitChar, charVal, this]
  exact Char.ofNat_toNat c

theorem charVal_lt_ten (c : Char) (hc : isDigitC c = true) : charVal c < 10 := by
  have hb : 48 ≤ c.toNat ∧ c.toNat ≤ 57 := by
    simpa [isDigitC] using hc
  rw [charVal]; omega

theorem charVal_pos_of_ne_zero (c : Char) (hc : isDigitC c = true) (hne : c ≠ '0') :
    charVal c ≠ 0 := by
  intro h0
  exact hne (by rw [← digitChar_charVal c hc, h0]; rfl)

theorem valChars_foldl_ge (l : List Char) : ∀ a, a ≤ l.foldl (fun a c => 10 * a + charVal c) a := by
  induction l with
  | nil => intro a; simp
  | cons c t ih =>
    intro a
    calc a ≤ 10 * a + charVal c := by omega
    _ ≤ _ := by simpa using ih (10 * a + charVal c)

theorem valChars_pos (l : List Char) (c : Char) (hd : isDigitC c = true) (hne : c ≠ '0') :
    1 ≤ valChars (c :: l) := by
  have h1 : 1 ≤ charVal c :=
    Nat.pos_iff_ne_zero.mpr (charVal_pos_of_ne_zero c hd hne)
  have : valChars (c :: l) = l.foldl (fun a c => 10 * a + charVal c) (charVal c) := by
    simp [valChars]
  rw [this]
  exact Nat.le_trans h1 (valChars_foldl_ge l (charVal c))

theorem decChars_single (d : Nat) (hd : d < 10) : decChars d = [digitChar d] := by
  interval_cases d <;> decide

/-- Uniqueness of the decimal form: printing the value of a well-formed
numeral (digits only, no leading zero) returns the numeral itself. -/
theorem decChars_valChars (cs : List Char) (hne : cs ≠ [])
    (hdig : ∀ c ∈ cs, isDigitC c = true) (hlead : noLeadZero cs = true) :
    decChars (valChars cs) = cs := by
  induction cs using List.reverseRecOn with
  | nil => exact absurd rfl hne
  | append_singleton xs c ih =>
    cases xs with
    | nil =>
      have hc : isDigitC c = true := hdig c (by simp)
      have hv : valChars [c] = charVal c := by simp [valChars]
      rw [List.nil_append, hv, decChars_single (charVal c) (charVal_lt_ten c hc),
        digitChar_charVal c hc]
    | cons x ys =>
      have hx : isDigitC x = true := hdig x (by simp)
      have hxz : x ≠ '0' := by
        rcases hys : ys ++ [c] with - | ⟨z, zs⟩
        · exact absurd hys (by simp)
        · have h' : (x :: ys) ++ [c] = x :: z :: zs := by simp [hys]
          have : noLeadZero (x :: z :: zs) = true := by rw [← h']; exact hlead
          simpa [noLeadZero] using this
      have hxs_ne : x :: ys ≠ [] := by simp
      have hxs_dig : ∀ d ∈ x :: ys, isDigitC d = true := by
        intro d hd
        exact hdig d (List.mem_append_left _ hd)
      have hxs_lead : noLeadZero (x :: ys) = true := by
        cases ys with
        | nil => rfl
        | cons y zs => simpa [noLeadZero] using hxz
      have hw : 1 ≤ valChars (x :: ys) := valChars_pos ys x hx hxz
      have hcdig : isDigitC c = true := hdig c (by simp)
      have hcv : charVal c < 10 := charVal_lt_ten c hcdig
      set w := valChars (x :: ys) with hwdef
      have hval : valChars ((x :: ys) ++ [c]) = 10 * w + charVal c :=
        valChars_append_one (x :: ys) c
      rw [hval]
      have hv10 : 10 ≤ 10 * w + charVal c := by omega
      have hvne : 10 * w + charVal c ≠ 0 := by omega
      have hdiv : (10 * w + charVal c) / 10 = w := by omega
      have hmod : (10 * w + charVal c) % 10 = charVal c := by omega
      rcases decChars_step (10 * w + charVal c) (by omega) with ⟨-, h⟩ | ⟨hlt, -⟩
      · rw [h, hdiv, hmod, ih hxs_ne hxs_dig hxs_lead, digitChar_charVal c hcdig]
      · omega

/-! ## Splitting character lists (string.split of python, specialised) -/

/-- Split at the first occurrence of `sep`: the part before it, and,
when `sep` occurs, the part after it. -/
def breakAt (sep : Char) : List Char → List Char × Option (List Char)
  | [] => ([], none)
  | c :: rest =>
    if c = sep then ([], some rest)
    else
      let p := breakAt sep rest
      (c :: p.1, p.2)

theorem breakAt_not_mem (sep : Char) (l : List Char) (h : sep ∉ l) :
    breakAt sep l = (l, none) := by
  induction l with
  | nil => rfl
  | cons c rest ih =>
    have hc : c ≠ sep := fun hc => h (hc ▸ List.mem_cons_self c rest)
    have hr : sep ∉ rest := fun hr => h (List.mem_cons_of_mem c hr)
    simp [breakAt, if_neg hc, ih hr]

theorem breakAt_append (sep : Char) (a b : List Char) (h : sep ∉ a) :
    breakAt sep (a ++ sep :: b) = (a, some b) := by
  induction a with
  | nil => simp [breakAt]
  | cons c rest ih =>
    have hc : c ≠ sep := fun hc => h (hc ▸ List.mem_cons_self c rest)
    have hr : sep ∉ rest := fun hr => h (List.mem_cons_of_mem c hr)
    simp [breakAt, if_neg hc, ih hr]

theorem breakAt_eq_none (sep : Char) (l : List Char) :
    ∀ a, breakAt sep l = (a, none) → l = a ∧ sep ∉ a := by
  induction l with
  | nil =>
    intro a h
    simp only [breakAt, Prod.mk.injEq] at h
    obtain ⟨h1, -⟩ := h
    subst h1
    exact ⟨rfl, by simp⟩
  | cons c rest ih =>
    intro a h
    by_cases hc : c = sep
    · simp [breakAt, hc] at h
    · simp only [breakAt, if_neg hc, Prod.mk.injEq] at h
      obtain ⟨h1, h2⟩ := h
      obtain ⟨he, hnm⟩ := ih (breakAt sep rest).1
        (by rw [Prod.ext_iff]; exact ⟨rfl, h2⟩)
      subst h1
      refine ⟨by rw [← he], ?_⟩
      intro hmem
      rcases List.mem_cons.mp hmem with h' | h'
      · exact hc h'.symm
      · exact hnm h'

theorem breakAt_eq_some (sep : Char) (l : List Char) (b : List Char) :
    ∀ a, breakAt sep l = (a, some b) → l = a ++ sep :: b ∧ sep ∉ a := by
  induction l with
  | nil =>
    intro a h
    simp [breakAt] at h
  | cons c rest ih =>
    intro a h
    by_cases hc : c = sep
    · subst hc
      have h' : (([] : List Char), some rest) = (a, some b) := by
        rw [← h]; simp [breakAt]
      rw [Prod.mk.injEq, Option.some.injEq] at h'
      obtain ⟨h1, h2⟩ := h'
      subst h1
      subst h2
      exact ⟨rfl, by simp⟩
    · simp only [breakAt, if_neg hc, Prod.mk.injEq] at h
      obtain ⟨h1, h2⟩ := h
      obtain ⟨he, hnm⟩ := ih (breakAt sep rest).1
        (by rw [Prod.ext_iff]; exact ⟨rfl, h2⟩)
      subst h1
      refine ⟨by rw [List.cons_append, ← he], ?_⟩
      intro hmem
      rcases List.mem_cons.mp hmem with h' | h'
      · exact hc h'.symm
      · exact hnm h'

/-- Split on every occurrence of `sep`, python `str.split(sep)`:
always at least one (possibly empty) part. -/
def splitOnC (sep : Char) : List Char → List (List Char)
  | [] => [[]]
  | c :: rest =>
    if c = sep then [] :: splitOnC sep rest
    else
      match splitOnC sep rest with
      | [] => [[c]]
      | g :: gs => (c :: g) :: gs

/-- Reassemble dotted parts, python `sep.join(parts)`. -/
def joinSep (sep : Char) : List (List Char) → List Char
  | [] => []
  | [p] => p
  | p :: ps => p ++ sep :: joinSep sep ps

theorem splitOnC_ne_nil (sep : Char) (l : List Char) : splitOnC sep l ≠ [] := by
  induction l with
  | nil => simp [splitOnC]
  | cons c rest ih =>
    by_cases hc : c = sep
    · simp [splitOnC, hc]
    · simp only [splitOnC, if_neg hc]
      rcases h : splitOnC sep rest with - | ⟨g, gs⟩
      · simp
      · simp

theorem joinSep_splitOnC (sep : Char) (l : List Char) :
    joinSep sep (splitOnC sep l) = l := by
  induction l with
  | nil => rfl
  | cons c rest ih =>
    by_cases hc : c = sep
    · subst hc
      simp only [splitOnC, if_pos rfl]
      rcases h : splitOnC c rest with - | ⟨g, gs⟩
      · exact absurd h (splitOnC_ne_nil c rest)
      · rw [h] at ih
        simp [joinSep, ih]
    · simp only [splitOnC, if_neg hc]
      rcases h : splitOnC sep rest with - | ⟨g, gs⟩
      · exact absurd h (splitOnC_ne_nil sep rest)
      · rw [h] at ih
        cases gs with
        | nil => exact congrArg (c :: ·) ih
        | cons g2 gs2 =>
          show (c :: g) ++ sep :: joinSep sep (g2 :: gs2) = c :: rest
          rw [List.cons_append]
          exact congrArg (c :: ·) ih

theorem splitOnC_not_mem (sep : Char) (p : List Char) (h : sep ∉ p) :
    splitOnC sep p = [p] := by
  induction p with
  | nil => rfl
  | cons c rest ih =>
    have hc : c ≠ sep := fun hc => h (hc ▸ List.mem_cons_self c rest)
    have hr : sep ∉ rest := fun hr => h (List.mem_cons_of_mem c hr)
    simp [splitOnC, if_neg hc, ih hr]

theorem splitOnC_append (sep : Char) (p t : List Char) (h : sep ∉ p) :
    splitOnC sep (p ++ sep :: t) = p :: splitOnC sep t := by
  induction p with
  | nil => simp [splitOnC]
  | cons c rest ih =>
    have hc : c ≠ sep := fun hc => h (hc ▸ List.mem_cons_self c rest)
    have hr : sep ∉ rest := fun hr => h (List.mem_cons_of_mem c hr)
    show splitOnC sep (c :: (rest ++ sep :: t)) = (c :: rest) :: splitOnC sep t
    simp only [splitOnC, if_neg hc]
    rw [ih hr]

theorem splitOnC_joinSep (sep : Char) (parts : List (List Char))
    (hne : parts ≠ []) (h : ∀ p ∈ parts, sep ∉ p) :
    splitOnC sep (joinSep sep parts) = parts := by
  induction parts with
  | nil => exact absurd rfl hne
  | cons p ps ih =>
    cases ps with
    | nil => exact splitOnC_not_mem sep p (h p (by simp))
    | cons q qs =>
      have hp : sep ∉ p := h p (by simp)
      have hrest : ∀ r ∈ q :: qs, sep ∉ r := fun r hr => h r (List.mem_cons_of_mem p hr)
      show splitOnC sep (p ++ sep :: joinSep sep (q :: qs)) = p :: q :: qs
      rw [splitOnC_append sep p _ hp, ih (by simp) hrest]

theorem mem_joinSep (sep : Char) (parts : List (List Char)) (c : Char)
    (h : c ∈ joinSep sep parts) : c = sep ∨ ∃ p ∈ parts, c ∈ p := by
  induction parts with
  | nil => simp [joinSep] at h
  | cons p ps ih =>
    cases ps with
    | nil =>
      right
      exact ⟨p, by simp, h⟩
    | cons q qs =>
      rcases List.mem_append.mp h with h' | h'
      · exact Or.inr ⟨p, by simp, h'⟩
      · rcases List.mem_cons.mp h' with h'' | h''
        · exact Or.inl h''
        · rcases ih h'' with h3 | ⟨r, hr, hcr⟩
          · exact Or.inl h3
          · exact Or.inr ⟨r, List.mem_cons_of_mem p hr, hcr⟩

/-! ## Semantic versions

The python `semver` library (used through
`pydantic_extra_types.semantic_version.SemanticVersion`) keeps
major/minor/patch as integers and the optional prerelease and build parts as
raw strings validated against the semver grammar. -/

/-- Identifier character class `[0-9a-zA-Z-]` of the semver grammar. -/
def isIdChar (c : Char) : Bool :=
  isDigitC c || (65 ≤ c.toNat && c.toNat ≤ 90) || (97 ≤ c.toNat && c.toNat ≤ 122)
    || c = '-'

/-- One dotted prerelease identifier: `0|[1-9]\d*|\d*[a-zA-Z-][0-9a-zA-Z-]*`. -/
def preIdOk (p : List Char) : Bool :=
  !p.isEmpty && p.all isIdChar && (!p.all isDigitC || noLeadZero p)

/-- One dotted build identifier: `[0-9a-zA-Z-]+`. -/
def buildIdOk (p : List Char) : Bool := !p.isEmpty && p.all isIdChar

/-- Whole prerelease part of the grammar (dot-separated identifiers). -/
def preOk (l : List Char) : Bool := (splitOnC '.' l).all preIdOk

/-- Whole build part of the grammar (dot-separated identifiers). -/
def buildOk (l : List Char) : Bool := (splitOnC '.' l).all buildIdOk

structure SemVer where
  major : Nat
  minor : Nat
  patch : Nat
  prerelease : Option String := none
  build : Option String := none
deriving DecidableEq, Repr

/-- Grammar of an optional prerelease part. -/
def preWfO : Option String → Bool
  | none => true
  | some p => preOk p.data

/-- Grammar of an optional build part. -/
def buildWfO : Option String → Bool
  | none => true
  | some b => buildOk b.data

/-- Grammar well-formedness of a `SemVer` value: what `SemanticVersion.parse`
guarantees about the stored prerelease and build strings. -/
def SemVer.wf (v : SemVer) : Bool := preWfO v.prerelease && buildWfO v.build

/-- The version-core text `major.minor.patch`. -/
def coreChars (v : SemVer) : List Char :=
  decChars v.major ++ '.' :: decChars v.minor ++ '.' :: decChars v.patch

/-- Text contributed by the optional prerelease part. -/
def preTail : Option String → List Char
  | none => []
  | some p => '-' :: p.data

/-- Text contributed by the optional build part. -/
def buildTail : Option String → List Char
  | none => []
  | some b => '+' :: b.data

/-- Textual form of a version, python `str(version)`:
`major.minor.patch` then `-prerelease` and `+build` when present. -/
def SemVer.chars (v : SemVer) : List Char :=
  coreChars v ++ preTail v.prerelease ++ buildTail v.build

def SemVer.str (v : SemVer) : String := ⟨v.chars⟩

/-- `^(0|[1-9]\d*)$` with its integer value. -/
def parseNumC (l : List Char) : Option Nat :=
  if !l.isEmpty && l.all isDigitC && noLeadZero l then some (valChars l) else none

def parseOptPre : Option (List Char) → Option (Option String)
  | none => some none
  | some pr => if preOk pr then some (some ⟨pr⟩) else none

def parseOptBuild : Option (List Char) → Option (Option String)
  | none => some none
  | some b => if buildOk b then some (some ⟨b⟩) else none

/-- `SemanticVersion.parse`; `None` models the raised `ValueError`. -/
def parseVerC (l : List Char) : Option SemVer :=
  match splitOnC '.' (breakAt '-' (breakAt '+' l).1).1 with
  | [m, n, p] => do
    let major ← parseNumC m
    let minor ← parseNumC n
    let patch ← parseNumC p
    let pre ← parseOptPre (breakAt '-' (breakAt '+' l).1).2
    let bld ← parseOptBuild (breakAt '+' l).2
    some ⟨major, minor, patch, pre, bld⟩
  | _ => none

def SemVer.parse (s : String) : Option SemVer := parseVerC s.data

/-! ## Round trips between a version value and its text -/

theorem not_mem_decChars_of_not_digit (k : Nat) (c : Char)
    (hc : isDigitC c = false) : c ∉ decChars k := by
  intro hm
  rw [decChars_all_digit k c hm] at hc
  cases hc

theorem dot_not_mem_decChars (k : Nat) : '.' ∉ decChars k :=
  not_mem_decChars_of_not_digit k '.' (by decide)

theorem dash_not_mem_decChars (k : Nat) : '-' ∉ decChars k :=
  not_mem_decChars_of_not_digit k '-' (by decide)

theorem plus_not_mem_decChars (k : Nat) : '+' ∉ decChars k :=
  not_mem_decChars_of_not_digit k '+' (by decide)

theorem coreChars_eq_joinSep (v : SemVer) :
    coreChars v =
      joinSep '.' [decChars v.major, decChars v.minor, decChars v.patch] := by
  simp [coreChars, joinSep]

theorem mem_coreChars (v : SemVer) (c : Char) (h : c ∈ coreChars v) :
    isDigitC c = true ∨ c = '.' := by
  rw [coreChars_eq_joinSep] at h
  rcases mem_joinSep '.' _ c h with he | ⟨p, hp, hcp⟩
  · exact Or.inr he
  · rcases List.mem_cons.mp hp with rfl | hp
    · exact Or.inl (decChars_all_digit _ _ hcp)
    · rcases List.mem_cons.mp hp with rfl | hp
      · exact Or.inl (decChars_all_digit _ _ hcp)
      · rcases List.mem_cons.mp hp with rfl | hp
        · exact Or.inl (decChars_all_digit _ _ hcp)
        · simp at hp

theorem plus_not_mem_coreChars (v : SemVer) : '+' ∉ coreChars v := by
  intro h
  rcases mem_coreChars v '+' h with h' | h'
  · exact absurd h' (by decide)
  · exact absurd h' (by decide)

theorem dash_not_mem_coreChars (v : SemVer) : '-' ∉ coreChars v := by
  intro h
  rcases mem_coreChars v '-' h with h' | h'
  · exact absurd h' (by decide)
  · exact absurd h' (by decide)

theorem preIdOk_all_id (p : List Char) (h : preIdOk p = true) :
    p.all isIdChar = true := by
  rw [preIdOk, Bool.and_eq_true, Bool.and_eq_true] at h
  exact h.1.2

theorem buildIdOk_all_id (p : List Char) (h : buildIdOk p = true) :
    p.all isIdChar = true := by
  rw [buildIdOk, Bool.and_eq_true] at h
  exact h.2

theorem plus_not_mem_of_parts (l : List Char)
    (h : ∀ p ∈ splitOnC '.' l, p.all isIdChar = true) : '+' ∉ l := by
  intro hm
  rw [← joinSep_splitOnC '.' l] at hm
  rcases mem_joinSep '.' _ '+' hm with he | ⟨p, hp, hcp⟩
  · exact absurd he (by decide)
  · have := List.all_eq_true.mp (h p hp) '+' hcp
    exact absurd this (by decide)

theorem preOk_no_plus (l : List Char) (h : preOk l = true) : '+' ∉ l :=
  plus_not_mem_of_parts l fun p hp =>
    preIdOk_all_id p (List.all_eq_true.mp h p hp)

theorem buildOk_no_plus (l : List Char) (h : buildOk l = true) : '+' ∉ l :=
  plus_not_mem_of_parts l fun p hp =>
    buildIdOk_all_id p (List.all_eq_true.mp h p hp)

theorem splitOnC_coreChars (v : SemVer) :
    splitOnC '.' (coreChars v) =
      [decChars v.major, decChars v.minor, decChars v.patch] := by
  rw [coreChars_eq_joinSep, splitOnC_joinSep]
  · simp
  · intro p hp
    rcases List.mem_cons.mp hp with rfl | hp
    · exact dot_not_mem_decChars _
    · rcases List.mem_cons.mp hp with rfl | hp
      · exact dot_not_mem_decChars _
      · rcases List.mem_cons.mp hp with rfl | hp
        · exact dot_not_mem_decChars _
        · simp at hp

theorem parseNumC_decChars (k : Nat) : parseNumC (decChars k) = some k := by
  rw [parseNumC, if_pos, valChars_decChars]
  rw [Bool.and_eq_true, Bool.and_eq_true]
  refine ⟨⟨?_, ?_⟩, ?_⟩
  · simp [List.isEmpty_iff, decChars_ne_nil k]
  · exact List.all_eq_true.mpr (decChars_all_digit k)
  · exact noLeadZero_decChars k

theorem parseNumC_eq_some (l : List Char) (k : Nat) (h : parseNumC l = some k) :
    l = decChars k := by
  rw [parseNumC] at h
  by_cases hc : (!l.isEmpty && l.all isDigitC && noLeadZero l) = true
  · rw [if_pos hc] at h
    rw [Bool.and_eq_true, Bool.and_eq_true] at hc
    obtain ⟨⟨h1, h2⟩, h3⟩ := hc
    have hk := Option.some.inj h
    subst hk
    exact (decChars_valChars l (by simpa [List.isEmpty_iff] using h1)
      (List.all_eq_true.mp h2) h3).symm
  · rw [if_neg hc] at h
    cases h

/-- The optional raw character list of an optional string part. -/
def optData : Option String → Option (List Char)
  | none => none
  | some p => some p.data

theorem plus_not_mem_preTail (pre : Option String) (h : preWfO pre = true) :
    '+' ∉ preTail pre := by
  cases pre with
  | none => simp [preTail]
  | some p =>
    intro hm
    rcases List.mem_cons.mp hm with he | hm'
    · exact absurd he (by decide)
    · exact preOk_no_plus p.data (by simpa [preWfO] using h) hm'

theorem breakAt_plus_chars (v : SemVer) (h : preWfO v.prerelease = true) :
    breakAt '+' v.chars = (coreChars v ++ preTail v.prerelease, optData v.build) := by
  have hnm : '+' ∉ coreChars v ++ preTail v.prerelease := by
    intro hm
    rcases List.mem_append.mp hm with hm | hm
    · exact plus_not_mem_coreChars v hm
    · exact plus_not_mem_preTail v.prerelease h hm
  cases hb : v.build with
  | none =>
    rw [SemVer.chars, hb]
    show breakAt '+' (coreChars v ++ preTail v.prerelease ++ []) = _
    rw [List.append_nil]
    exact breakAt_not_mem '+' _ hnm
  | some b =>
    rw [SemVer.chars, hb]
    show breakAt '+' (coreChars v ++ preTail v.prerelease ++ '+' :: b.data) = _
    exact breakAt_append '+' (coreChars v ++ preTail v.prerelease) b.data hnm

theorem breakAt_dash_part (v : SemVer) :
    breakAt '-' (coreChars v ++ preTail v.prerelease) =
      (coreChars v, optData v.prerelease) := by
  cases hp : v.prerelease with
  | none =>
    show breakAt '-' (coreChars v ++ []) = _
    rw [List.append_nil]
    exact breakAt_not_mem '-' _ (dash_not_mem_coreChars v)
  | some p =>
    show breakAt '-' (coreChars v ++ '-' :: p.data) = _
    exact breakAt_append '-' _ _ (dash_not_mem_coreChars v)

theorem parseOptPre_optData (pre : Option String) (h : preWfO pre = true) :
    parseOptPre (optData pre) = some pre := by
  cases pre with
  | none => rfl
  | some p =>
    have hpok : preOk p.data = true := by simpa [preWfO] using h
    simp [parseOptPre, optData, hpok]

theorem parseOptBuild_optData (bld : Option String) (h : buildWfO bld = true) :
    parseOptBuild (optData bld) = some bld := by
  cases bld with
  | none => rfl
  | some b =>
    have hbok : buildOk b.data = true := by simpa [buildWfO] using h
    simp [parseOptBuild, optData, hbok]

/-- Printing a grammar-well-formed version and parsing the text back returns
the same version value: the str / parse round trip of the semver library. -/
theorem parse_str (v : SemVer) (h : v.wf = true) : SemVer.parse v.str = some v := by
  rw [SemVer.wf, Bool.and_eq_true] at h
  obtain ⟨hw1, hw2⟩ := h
  show parseVerC v.chars = some v
  rw [parseVerC, breakAt_plus_chars v hw1]
  simp only
  rw [breakAt_dash_part v]
  simp only
  rw [splitOnC_coreChars]
  simp only [parseNumC_decChars, Option.bind_eq_bind, Option.some_bind]
  rw [parseOptPre_optData v.prerelease hw1, parseOptBuild_optData v.build hw2]
  simp

theorem parseOptPre_eq_some (o : Option (List Char)) (pre : Option String)
    (h : parseOptPre o = some pre) : o = optData pre ∧ preWfO pre = true := by
  cases o with
  | none =>
    have h' : (none : Option String) = pre := Option.some.inj h
    subst h'
    exact ⟨rfl, rfl⟩
  | some pr =>
    rw [parseOptPre] at h
    by_cases hok : preOk pr = true
    · rw [if_pos hok] at h
      have h' := Option.some.inj h
      subst h'
      exact ⟨rfl, by simpa [preWfO] using hok⟩
    · rw [if_neg hok] at h
      cases h

theorem parseOptBuild_eq_some (o : Option (List Char)) (bld : Option String)
    (h : parseOptBuild o = some bld) : o = optData bld ∧ buildWfO bld = true := by
  cases o with
  | none =>
    have h' : (none : Option String) = bld := Option.some.inj h
    subst h'
    exact ⟨rfl, rfl⟩
  | some b =>
    rw [parseOptBuild] at h
    by_cases hok : buildOk b = true
    · rw [if_pos hok] at h
      have h' := Option.some.inj h
      subst h'
      exact ⟨rfl, by simpa [buildWfO] using hok⟩
    · rw [if_neg hok] at h
      cases h

/-- Parsing a text into a version value recovers the text by printing, and
the parsed value is grammar-well-formed. -/
theorem parseVerC_eq_some (l : List Char) (v : SemVer) (h : parseVerC l = some v) :
    v.chars = l ∧ v.wf = true := by
  rw [parseVerC] at h
  split at h
  next m n p heq =>
    simp only [Option.bind_eq_bind, Option.bind_eq_some] at h
    obtain ⟨major, hm, minor, hn, patch, hp, pre, hpre, bld, hbld, hv⟩ := h
    have hv' := Option.some.inj hv
    subst hv'
    obtain ⟨ho, hwpre⟩ := parseOptPre_eq_some _ _ hpre
    obtain ⟨hob, hwbld⟩ := parseOptBuild_eq_some _ _ hbld
    have hm' := parseNumC_eq_some _ _ hm
    have hn' := parseNumC_eq_some _ _ hn
    have hp' := parseNumC_eq_some _ _ hp
    have hcore : (breakAt '-' (breakAt '+' l).1).1 =
        coreChars ⟨major, minor, patch, pre, bld⟩ := by
      have hj := joinSep_splitOnC '.' (breakAt '-' (breakAt '+' l).1).1
      rw [heq] at hj
      rw [← hj, hm', hn', hp']
      exact (coreChars_eq_joinSep ⟨major, minor, patch, pre, bld⟩).symm
    have hx : (breakAt '+' l).1 =
        coreChars ⟨major, minor, patch, pre, bld⟩ ++ preTail pre := by
      cases hpre2 : pre with
      | none =>
        subst hpre2
        obtain ⟨he, -⟩ := breakAt_eq_none '-' (breakAt '+' l).1 _
          (by rw [Prod.ext_iff]; exact ⟨rfl, ho⟩)
        have hnil : coreChars ⟨major, minor, patch, none, bld⟩ ++ preTail none =
            coreChars ⟨major, minor, patch, none, bld⟩ := by
          simp [preTail]
        exact he.trans (hcore.trans hnil.symm)
      | some p =>
        subst hpre2
        obtain ⟨he, -⟩ := breakAt_eq_some '-' (breakAt '+' l).1 p.data _
          (by rw [Prod.ext_iff]; exact ⟨rfl, ho⟩)
        exact he.trans (congrArg (fun t => t ++ '-' :: p.data) hcore)
    have hl : l = coreChars ⟨major, minor, patch, pre, bld⟩ ++ preTail pre ++
        buildTail bld := by
      cases hbld2 : bld with
      | none =>
        subst hbld2
        obtain ⟨he, -⟩ := breakAt_eq_none '+' l _
          (by rw [Prod.ext_iff]; exact ⟨rfl, hob⟩)
        have hnil : coreChars ⟨major, minor, patch, pre, none⟩ ++ preTail pre ++
            buildTail none =
            coreChars ⟨major, minor, patch, pre, none⟩ ++ preTail pre := by
          simp [buildTail]
        exact he.trans (hx.trans hnil.symm)
      | some b =>
        subst hbld2
        obtain ⟨he, -⟩ := breakAt_eq_some '+' l b.data _
          (by rw [Prod.ext_iff]; exact ⟨rfl, hob⟩)
        exact he.trans (congrArg (fun t => t ++ '+' :: b.data) hx)
    refine ⟨?_, ?_⟩
    · rw [SemVer.chars]
      exact hl.symm
    · rw [SemVer.wf, Bool.and_eq_true]
      exact ⟨hwpre, hwbld⟩
  next hne =>
    cases h

/-! ## Ordering combinators -/

theorem then_eq_eq_iff (o p : Ordering) : o.then p = .eq ↔ o = .eq ∧ p = .eq := by
  cases o <;> cases p <;> simp [Ordering.then]

theorem then_eq_lt_iff (o p : Ordering) :
    o.then p = .lt ↔ o = .lt ∨ (o = .eq ∧ p = .lt) := by
  cases o <;> cases p <;> simp [Ordering.then]

theorem then_eq_gt_iff (o p : Ordering) :
    o.then p = .gt ↔ o = .gt ∨ (o = .eq ∧ p = .gt) := by
  cases o <;> cases p <;> simp [Ordering.then]

theorem then_lex_swap {o1 o2 p1 p2 : Ordering} (h1 : o1 = p1.swap)
    (h2 : o2 = p2.swap) : o1.then o2 = (p1.then p2).swap := by
  subst h1
  subst h2
  cases p1 <;> cases p2 <;> rfl

theorem swap_eq_eq_iff (o : Ordering) : o.swap = .eq ↔ o = .eq := by
  cases o <;> simp [Ordering.swap]

theorem swap_eq_lt_iff (o : Ordering) : o.swap = .lt ↔ o = .gt := by
  cases o <;> simp [Ordering.swap]

theorem swap_eq_gt_iff (o : Ordering) : o.swap = .gt ↔ o = .lt := by
  cases o <;> simp [Ordering.swap]

/-- Python `cmp` on integers. -/
def cmpNat (a b : Nat) : Ordering :=
  if a < b then .lt else if b < a then .gt else .eq

theorem cmpNat_eq_lt_iff (a b : Nat) : cmpNat a b = .lt ↔ a < b := by
  rw [cmpNat]
  by_cases h : a < b
  · simp [h]
  · by_cases h' : b < a <;> simp [h, h']

theorem cmpNat_eq_gt_iff (a b : Nat) : cmpNat a b = .gt ↔ b < a := by
  rw [cmpNat]
  by_cases h : a < b
  · simp [h]
    omega
  · by_cases h' : b < a <;> simp [h, h']

theorem cmpNat_eq_eq_iff (a b : Nat) : cmpNat a b = .eq ↔ a = b := by
  rw [cmpNat]
  by_cases h : a < b
  · simp [h]
    omega
  · by_cases h' : b < a <;> simp [h, h'] <;> omega

theorem cmpNat_swap (a b : Nat) : cmpNat a b = (cmpNat b a).swap := by
  rw [cmpNat, cmpNat]
  by_cases h : a < b
  · have h' : ¬ b < a := by omega
    simp [h, h', Ordering.swap]
  · by_cases h' : b < a <;> simp [h, h', Ordering.swap]

theorem cmpNat_trans_lt {a b c : Nat} (h1 : cmpNat a b = .lt)
    (h2 : cmpNat b c = .lt) : cmpNat a c = .lt := by
  rw [cmpNat_eq_lt_iff] at h1 h2 ⊢
  omega

theorem cmpNat_add_left (k a b : Nat) : cmpNat (k + a) (k + b) = cmpNat a b := by
  rw [cmpNat, cmpNat]
  by_cases h : a < b
  · simp [h, Nat.add_lt_add_iff_left]
  · by_cases h' : b < a <;> simp [h, h', Nat.add_lt_add_iff_left]

/-! ## Generic lexicographic list comparison -/

/-- Element-by-element lexicographic comparison; a strict prefix is smaller
(the semantics of python sequence and string comparison). -/
def lexList {α : Type} (f : α → α → Ordering) : List α → List α → Ordering
  | [], [] => .eq
  | [], _ :: _ => .lt
  | _ :: _, [] => .gt
  | a :: as, b :: bs => (f a b).then (lexList f as bs)

theorem lexList_swap {α : Type} (f : α → α → Ordering)
    (hswap : ∀ a b, f a b = (f b a).swap) :
    ∀ x y, lexList f x y = (lexList f y x).swap := by
  intro x
  induction x with
  | nil => intro y; cases y <;> rfl
  | cons a as ih =>
    intro y
    cases y with
    | nil => rfl
    | cons b bs =>
      show (f a b).then (lexList f as bs) = ((f b a).then (lexList f bs as)).swap
      exact then_lex_swap (hswap a b) (ih bs)

theorem lexList_eq_eq_iff {α : Type} (f : α → α → Ordering)
    (heq : ∀ a b, f a b = .eq ↔ a = b) :
    ∀ x y, lexList f x y = .eq ↔ x = y := by
  intro x
  induction x with
  | nil => intro y; cases y <;> simp [lexList]
  | cons a as ih =>
    intro y
    cases y with
    | nil => simp [lexList]
    | cons b bs =>
      show (f a b).then (lexList f as bs) = .eq ↔ _
      rw [then_eq_eq_iff, heq, ih]
      simp

theorem lexList_trans_lt {α : Type} (f : α → α → Ordering)
    (heq : ∀ a b, f a b = .eq ↔ a = b)
    (htr : ∀ {a b c}, f a b = .lt → f b c = .lt → f a c = .lt) :
    ∀ {x y z}, lexList f x y = .lt → lexList f y z = .lt → lexList f x z = .lt := by
  intro x
  induction x with
  | nil =>
    intro y z h1 h2
    cases y with
    | nil => cases h1
    | cons b bs =>
      cases z with
      | nil => cases h2
      | cons c cs => rfl
  | cons a as ih =>
    intro y z h1 h2
    cases y with
    | nil => cases h1
    | cons b bs =>
      cases z with
      | nil => cases h2
      | cons c cs =>
        show (f a c).then (lexList f as cs) = .lt
        rw [then_eq_lt_iff]
        have h1' := (then_eq_lt_iff ..).mp h1
        have h2' := (then_eq_lt_iff ..).mp h2
        rcases h1' with hab | ⟨hab, hrest1⟩
        · rcases h2' with hbc | ⟨hbc, hrest2⟩
          · exact Or.inl (htr hab hbc)
          · have := (heq b c).mp hbc
            subst this
            exact Or.inl hab
        · have := (heq a b).mp hab
          subst this
          rcases h2' with hbc | ⟨hbc, hrest2⟩
          · exact Or.inl hbc
          · exact Or.inr ⟨hbc, ih hrest1 hrest2⟩

theorem eq_then (p : Ordering) : Ordering.eq.then p = p := rfl

theorem then_eq_o (o : Ordering) : o.then .eq = o := by cases o <;> rfl

theorem then_assoc (o p q : Ordering) : (o.then p).then q = o.then (p.then q) := by
  cases o <;> rfl

/-! ## Prerelease comparison of the semver library (`_nat_cmp`) -/

/-- Python character comparison (by code point). -/
def cmpCharPair (a b : Char) : Ordering := cmpNat a.toNat b.toNat

/-- Python string comparison: lexicographic by code point. -/
def cmpChars (a b : List Char) : Ordering := lexList cmpCharPair a b

theorem cmpCharPair_eq_eq_iff (a b : Char) : cmpCharPair a b = .eq ↔ a = b := by
  rw [cmpCharPair, cmpNat_eq_eq_iff]
  constructor
  · intro h
    rw [← Char.ofNat_toNat a, ← Char.ofNat_toNat b, h]
  · intro h
    rw [h]

theorem cmpCharPair_swap (a b : Char) : cmpCharPair a b = (cmpCharPair b a).swap :=
  cmpNat_swap a.toNat b.toNat

theorem cmpCharPair_trans_lt {a b c : Char} (h1 : cmpCharPair a b = .lt)
    (h2 : cmpCharPair b c = .lt) : cmpCharPair a c = .lt :=
  cmpNat_trans_lt h1 h2

theorem cmpChars_swap (a b : List Char) : cmpChars a b = (cmpChars b a).swap :=
  lexList_swap cmpCharPair cmpCharPair_swap a b

theorem cmpChars_eq_eq_iff (a b : List Char) : cmpChars a b = .eq ↔ a = b :=
  lexList_eq_eq_iff cmpCharPair cmpCharPair_eq_eq_iff a b

theorem cmpChars_trans_lt {a b c : List Char} (h1 : cmpChars a b = .lt)
    (h2 : cmpChars b c = .lt) : cmpChars a c = .lt :=
  lexList_trans_lt cmpCharPair cmpCharPair_eq_eq_iff
    (fun ha hb => cmpCharPair_trans_lt ha hb) h1 h2

/-- `int(x) if re.match(r"^\d+$", x) else x` applied to a dotted identifier. -/
def toPart (p : List Char) : Sum Nat (List Char) :=
  if !p.isEmpty && p.all isDigitC then .inl (valChars p) else .inr p

/-- `cmp_prerelease_tag` of `semver._nat_cmp`: integers sort below
non-numeric identifiers, integers numerically, strings lexically. -/
def cmpTag : Sum Nat (List Char) → Sum Nat (List Char) → Ordering
  | .inl a, .inl b => cmpNat a b
  | .inl _, .inr _ => .lt
  | .inr _, .inl _ => .gt
  | .inr a, .inr b => cmpChars a b

theorem cmpTag_swap (x y : Sum Nat (List Char)) : cmpTag x y = (cmpTag y x).swap := by
  cases x with
  | inl a =>
    cases y with
    | inl b => exact cmpNat_swap a b
    | inr t => rfl
  | inr s =>
    cases y with
    | inl b => rfl
    | inr t => exact cmpChars_swap s t

theorem cmpTag_eq_eq_iff (x y : Sum Nat (List Char)) : cmpTag x y = .eq ↔ x = y := by
  cases x with
  | inl a =>
    cases y with
    | inl b => simp [cmpTag, cmpNat_eq_eq_iff]
    | inr s => simp [cmpTag]
  | inr s =>
    cases y with
    | inl b => simp [cmpTag]
    | inr t => simp [cmpTag, cmpChars_eq_eq_iff]

theorem cmpTag_trans_lt {x y z : Sum Nat (List Char)} (h1 : cmpTag x y = .lt)
    (h2 : cmpTag y z = .lt) : cmpTag x z = .lt := by
  cases x with
  | inl a =>
    cases y with
    | inl b =>
      cases z with
      | inl c =>
        exact cmpNat_trans_lt h1 h2
      | inr u => rfl
    | inr t =>
      cases z with
      | inl c => cases h2
      | inr u => rfl
  | inr s =>
    cases y with
    | inl b => cases h1
    | inr t =>
      cases z with
      | inl c => cases h2
      | inr u => exact cmpChars_trans_lt h1 h2

/-- The zip loop of `_nat_cmp`: compare pairwise, stop at the shorter list. -/
def zipCmp : List (Sum Nat (List Char)) → List (Sum Nat (List Char)) → Ordering
  | a :: as, b :: bs => (cmpTag a b).then (zipCmp as bs)
  | _, _ => .eq

/-- `semver._nat_cmp`: pairwise identifier comparison over the zipped dotted
parts, then comparison of the raw string lengths. -/
def natCmpChars (a b : List Char) : Ordering :=
  (zipCmp ((splitOnC '.' a).map toPart) ((splitOnC '.' b).map toPart)).then
    (cmpNat a.length b.length)

theorem preIdOk_ne_nil (p : List Char) (h : preIdOk p = true) : p ≠ [] := by
  rw [preIdOk, Bool.and_eq_true, Bool.and_eq_true] at h
  simpa [List.isEmpty_iff] using h.1.1

theorem toPart_inj_wf (p q : List Char) (hp : preIdOk p = true)
    (hq : preIdOk q = true) (h : toPart p = toPart q) : p = q := by
  rw [toPart, toPart] at h
  by_cases hpd : (!p.isEmpty && p.all isDigitC) = true
  · by_cases hqd : (!q.isEmpty && q.all isDigitC) = true
    · rw [if_pos hpd, if_pos hqd] at h
      have hv : valChars p = valChars q := Sum.inl.inj h
      rw [preIdOk, Bool.and_eq_true, Bool.and_eq_true] at hp hq
      rw [Bool.and_eq_true] at hpd hqd
      have hplead : noLeadZero p = true := by
        have := hp.2
        rw [Bool.or_eq_true] at this
        rcases this with h' | h'
        · rw [hpd.2] at h'
          cases h'
        · exact h'
      have hqlead : noLeadZero q = true := by
        have := hq.2
        rw [Bool.or_eq_true] at this
        rcases this with h' | h'
        · rw [hqd.2] at h'
          cases h'
        · exact h'
      have hpe := decChars_valChars p (by simpa [List.isEmpty_iff] using hpd.1)
        (List.all_eq_true.mp hpd.2) hplead
      have hqe := decChars_valChars q (by simpa [List.isEmpty_iff] using hqd.1)
        (List.all_eq_true.mp hqd.2) hqlead
      rw [← hpe, ← hqe, hv]
    · rw [if_pos hpd, if_neg hqd] at h
      cases h
  · by_cases hqd : (!q.isEmpty && q.all isDigitC) = true
    · rw [if_neg hpd, if_pos hqd] at h
      cases h
    · rw [if_neg hpd, if_neg hqd] at h
      exact Sum.inr.inj h

theorem joinSep_cons_cons_length (p q : List Char) (ps : List (List Char)) :
    (joinSep '.' (p :: q :: ps)).length =
      p.length + ((joinSep '.' (q :: ps)).length + 1) := by
  show (p ++ '.' :: joinSep '.' (q :: ps)).length = _
  simp

theorem joinSep_cons_length_pos (q : List Char) (qs : List (List Char))
    (hq : q ≠ []) : 0 < (joinSep '.' (q :: qs)).length := by
  cases qs with
  | nil =>
    show 0 < q.length
    exact List.length_pos.mpr hq
  | cons q2 qs2 =>
    rw [joinSep_cons_cons_length]
    have : 0 < q.length := List.length_pos.mpr hq
    omega

theorem cmpNat_add_right (a b k : Nat) : cmpNat (a + k) (b + k) = cmpNat a b := by
  rw [cmpNat, cmpNat]
  by_cases h : a < b
  · simp [h, Nat.add_lt_add_iff_right]
  · by_cases h' : b < a <;> simp [h, h', Nat.add_lt_add_iff_right]

/-- Over grammar-well-formed dotted parts the zip comparison with the raw
string-length tiebreak of `_nat_cmp` is exactly lexicographic comparison of
the identifier sequences. -/
theorem zipLen_eq_lexList (pa : List (List Char)) :
    ∀ pb, (∀ p ∈ pa, preIdOk p = true) → (∀ p ∈ pb, preIdOk p = true) →
    (zipCmp (pa.map toPart) (pb.map toPart)).then
      (cmpNat (joinSep '.' pa).length (joinSep '.' pb).length) =
    lexList cmpTag (pa.map toPart) (pb.map toPart) := by
  induction pa with
  | nil =>
    intro pb ha hb
    cases pb with
    | nil => rfl
    | cons q qs =>
      have hq : q ≠ [] := preIdOk_ne_nil q (hb q (by simp))
      have hlen := joinSep_cons_length_pos q qs hq
      show Ordering.then .eq (cmpNat 0 (joinSep '.' (q :: qs)).length) = .lt
      rw [eq_then, cmpNat_eq_lt_iff]
      exact hlen
  | cons p ps ih =>
    intro pb ha hb
    cases pb with
    | nil =>
      have hp : p ≠ [] := preIdOk_ne_nil p (ha p (by simp))
      have hlen := joinSep_cons_length_pos p ps hp
      show Ordering.then .eq (cmpNat (joinSep '.' (p :: ps)).length 0) = .gt
      rw [eq_then, cmpNat_eq_gt_iff]
      exact hlen
    | cons q qs =>
      show ((cmpTag (toPart p) (toPart q)).then
          (zipCmp (ps.map toPart) (qs.map toPart))).then
          (cmpNat (joinSep '.' (p :: ps)).length (joinSep '.' (q :: qs)).length) =
        (cmpTag (toPart p) (toPart q)).then
          (lexList cmpTag (ps.map toPart) (qs.map toPart))
      rw [then_assoc]
      rcases htag : cmpTag (toPart p) (toPart q) with - | - | -
      · rfl
      · -- heads compare equal: identical identifiers under well-formedness
        have hpq : p = q := toPart_inj_wf p q (ha p (by simp)) (hb q (by simp))
          ((cmpTag_eq_eq_iff ..).mp htag)
        subst hpq
        rw [eq_then, eq_then]
        cases ps with
        | nil =>
          cases qs with
          | nil =>
            show Ordering.then .eq (cmpNat p.length p.length) = .eq
            rw [eq_then, cmpNat_eq_eq_iff]
          | cons q2 qs2 =>
            have hq2 : q2 ≠ [] := preIdOk_ne_nil q2 (hb q2 (by simp))
            show Ordering.then .eq
                (cmpNat p.length (joinSep '.' (p :: q2 :: qs2)).length) = .lt
            rw [eq_then, cmpNat_eq_lt_iff, joinSep_cons_cons_length]
            have := joinSep_cons_length_pos q2 qs2 hq2
            omega
        | cons p2 ps2 =>
          cases qs with
          | nil =>
            have hp2 : p2 ≠ [] := preIdOk_ne_nil p2 (ha p2 (by simp))
            show Ordering.then .eq
                (cmpNat (joinSep '.' (p :: p2 :: ps2)).length p.length) = .gt
            rw [eq_then, cmpNat_eq_gt_iff, joinSep_cons_cons_length]
            have := joinSep_cons_length_pos p2 ps2 hp2
            omega
          | cons q2 qs2 =>
            rw [joinSep_cons_cons_length, joinSep_cons_cons_length]
            have hlen : cmpNat (p.length + ((joinSep '.' (p2 :: ps2)).length + 1))
                (p.length + ((joinSep '.' (q2 :: qs2)).length + 1)) =
                cmpNat (joinSep '.' (p2 :: ps2)).length
                  (joinSep '.' (q2 :: qs2)).length := by
              rw [cmpNat_add_left]
              rw [cmpNat_add_right]
            rw [hlen]
            exact ih (q2 :: qs2) (fun r hr => ha r (List.mem_cons_of_mem p hr))
              (fun r hr => hb r (List.mem_cons_of_mem p hr))
      · rfl

/-! ## Version precedence (`Version.compare` of the semver library) -/

/-- Python falsiness of the prerelease field (`None` or the empty string). -/
def rcEmpty : Option String → Bool
  | none => true
  | some s => s.data.isEmpty

/-- Prerelease handling of `Version.compare`: when `_nat_cmp` ties the
result is equal, otherwise a missing prerelease sorts above a present one,
otherwise the `_nat_cmp` result stands. -/
def cmpRc (rc1 rc2 : Option String) : Ordering :=
  let rccmp := natCmpChars (rc1.getD "").data (rc2.getD "").data
  if rccmp = .eq then .eq
  else if rcEmpty rc1 then .gt
  else if rcEmpty rc2 then .lt
  else rccmp

/-- `Version.compare`: the major/minor/patch triple lexicographically, then
the prerelease rule; build metadata never takes part in precedence. -/
def semverCmp (a b : SemVer) : Ordering :=
  (cmpNat a.major b.major).then ((cmpNat a.minor b.minor).then
    ((cmpNat a.patch b.patch).then (cmpRc a.prerelease b.prerelease)))

/-- The dotted identifiers of a prerelease string, as compared by
`_nat_cmp`. -/
def preParts (s : String) : List (Sum Nat (List Char)) :=
  (splitOnC '.' s.data).map toPart

/-- Reference order on the prerelease field: release above any prerelease,
prereleases lexicographically by identifier sequence. -/
def rcKeyCmp : Option String → Option String → Ordering
  | none, none => .eq
  | none, some _ => .gt
  | some _, none => .lt
  | some s, some t => lexList cmpTag (preParts s) (preParts t)

theorem zipCmp_swap (x : List (Sum Nat (List Char))) :
    ∀ y, zipCmp x y = (zipCmp y x).swap := by
  induction x with
  | nil => intro y; cases y <;> rfl
  | cons a as ih =>
    intro y
    cases y with
    | nil => rfl
    | cons b bs =>
      show (cmpTag a b).then (zipCmp as bs) = ((cmpTag b a).then (zipCmp bs as)).swap
      exact then_lex_swap (cmpTag_swap a b) (ih bs)

theorem natCmpChars_swap (a b : List Char) :
    natCmpChars a b = (natCmpChars b a).swap :=
  then_lex_swap (zipCmp_swap ..) (cmpNat_swap ..)

theorem preOk_parts (s : List Char) (h : preOk s = true) :
    ∀ p ∈ splitOnC '.' s, preIdOk p = true :=
  List.all_eq_true.mp h

theorem preOk_ne_nil (s : List Char) (h : preOk s = true) : s ≠ [] := by
  intro hnil
  subst hnil
  cases h

theorem natCmpChars_nil_left (s : List Char) (h : preOk s = true) :
    natCmpChars [] s ≠ .eq := by
  rw [natCmpChars]
  rcases hs : splitOnC '.' s with - | ⟨q, qs⟩
  · exact absurd hs (splitOnC_ne_nil '.' s)
  · have hq : preIdOk q = true := by
      have := preOk_parts s h
      rw [hs] at this
      exact this q (by simp)
    have hqne : q ≠ [] := preIdOk_ne_nil q hq
    show ((cmpTag (toPart []) (toPart q)).then (zipCmp [] (qs.map toPart))).then
        (cmpNat 0 s.length) ≠ .eq
    have hzr : zipCmp [] (qs.map toPart) = .eq := by cases qs.map toPart <;> rfl
    rw [hzr, then_eq_o]
    have htp : toPart [] = Sum.inr [] := rfl
    rw [htp]
    cases htq : toPart q with
    | inl n =>
      intro hc
      rw [then_eq_eq_iff] at hc
      exact absurd hc.1 (by simp [cmpTag])
    | inr q' =>
      have hq' : q' = q := by
        rw [toPart] at htq
        by_cases hd : (!q.isEmpty && q.all isDigitC) = true
        · rw [if_pos hd] at htq
          cases htq
        · rw [if_neg hd] at htq
          exact (Sum.inr.inj htq).symm
      subst hq'
      intro hc
      rw [then_eq_eq_iff] at hc
      have := (cmpChars_eq_eq_iff [] q').mp hc.1
      exact hqne this.symm

theorem natCmpChars_eq_lexList (s t : String) (hs : preOk s.data = true)
    (ht : preOk t.data = true) :
    natCmpChars s.data t.data = lexList cmpTag (preParts s) (preParts t) := by
  have h := zipLen_eq_lexList (splitOnC '.' s.data) (splitOnC '.' t.data)
    (preOk_parts s.data hs) (preOk_parts t.data ht)
  rw [joinSep_splitOnC, joinSep_splitOnC] at h
  exact h

/-- Under grammar well-formedness the prerelease rule of `Version.compare`
is exactly the reference order `rcKeyCmp`. -/
theorem cmpRc_eq_key (rc1 rc2 : Option String) (h1 : preWfO rc1 = true)
    (h2 : preWfO rc2 = true) : cmpRc rc1 rc2 = rcKeyCmp rc1 rc2 := by
  cases rc1 with
  | none =>
    cases rc2 with
    | none => decide
    | some t =>
      have ht : preOk t.data = true := by simpa [preWfO] using h2
      have hne := natCmpChars_nil_left t.data ht
      show cmpRc none (some t) = .gt
      rw [cmpRc]
      simp only [Option.getD]
      rw [if_neg (by exact hne)]
      rfl
  | some s =>
    have hsok : preOk s.data = true := by simpa [preWfO] using h1
    have hsne : s.data ≠ [] := preOk_ne_nil s.data hsok
    cases rc2 with
    | none =>
      have hne : natCmpChars s.data [] ≠ .eq := by
        intro hc
        apply natCmpChars_nil_left s.data hsok
        rw [natCmpChars_swap, hc]
        rfl
      show cmpRc (some s) none = .lt
      rw [cmpRc]
      simp only [Option.getD]
      rw [if_neg (by exact hne)]
      have hre : rcEmpty (some s) = false := by
        simp [rcEmpty, List.isEmpty_iff, hsne]
      rw [hre]
      rfl
    | some t =>
      have htok : preOk t.data = true := by simpa [preWfO] using h2
      have htne : t.data ≠ [] := preOk_ne_nil t.data htok
      have heq := natCmpChars_eq_lexList s t hsok htok
      show cmpRc (some s) (some t) = lexList cmpTag (preParts s) (preParts t)
      rw [cmpRc]
      simp only [Option.getD]
      rw [heq]
      by_cases hc : lexList cmpTag (preParts s) (preParts t) = .eq
      · rw [if_pos hc, hc]
      · rw [if_neg hc]
        have hre : rcEmpty (some s) = false := by
          simp [rcEmpty, List.isEmpty_iff, hsne]
        have hre2 : rcEmpty (some t) = false := by
          simp [rcEmpty, List.isEmpty_iff, htne]
        rw [hre, hre2]
        rfl

theorem rcKeyCmp_swap (rc1 rc2 : Option String) :
    rcKeyCmp rc1 rc2 = (rcKeyCmp rc2 rc1).swap := by
  cases rc1 with
  | none => cases rc2 <;> rfl
  | some s =>
    cases rc2 with
    | none => rfl
    | some t => exact lexList_swap cmpTag cmpTag_swap (preParts s) (preParts t)

theorem rcKeyCmp_eq_subst {rc1 rc2 : Option String}
    (h : rcKeyCmp rc1 rc2 = .eq) :
    ∀ rc3, rcKeyCmp rc2 rc3 = rcKeyCmp rc1 rc3 := by
  intro rc3
  cases rc1 with
  | none =>
    cases rc2 with
    | none => rfl
    | some t => cases h
  | some s =>
    cases rc2 with
    | none => cases h
    | some t =>
      have := (lexList_eq_eq_iff cmpTag cmpTag_eq_eq_iff _ _).mp h
      cases rc3 with
      | none => rfl
      | some u =>
        show lexList cmpTag (preParts t) (preParts u) =
          lexList cmpTag (preParts s) (preParts u)
        rw [this]

theorem rcKeyCmp_trans_lt {rc1 rc2 rc3 : Option String}
    (h1 : rcKeyCmp rc1 rc2 = .lt) (h2 : rcKeyCmp rc2 rc3 = .lt) :
    rcKeyCmp rc1 rc3 = .lt := by
  cases rc1 with
  | none =>
    cases rc2 with
    | none => cases h1
    | some t => cases h1
  | some s =>
    cases rc2 with
    | none =>
      cases rc3 with
      | none => cases h2
      | some u => cases h2
    | some t =>
      cases rc3 with
      | none => rfl
      | some u =>
        exact lexList_trans_lt cmpTag cmpTag_eq_eq_iff
          (fun ha hb => cmpTag_trans_lt ha hb) h1 h2

/-! ## Lexicographic composition of comparators -/

theorem lexComb_eq_subst {α : Type} (f g : α → α → Ordering)
    (fsub : ∀ {a b : α}, f a b = .eq → ∀ c, f b c = f a c)
    (gsub : ∀ {a b : α}, g a b = .eq → ∀ c, g b c = g a c)
    {a b : α} (h : (f a b).then (g a b) = .eq) :
    ∀ c, (f b c).then (g b c) = (f a c).then (g a c) := by
  rw [then_eq_eq_iff] at h
  intro c
  rw [fsub h.1 c, gsub h.2 c]

theorem lexComb_trans_lt {α : Type} (f g : α → α → Ordering)
    (fswap : ∀ a b, f a b = (f b a).swap)
    (fsub : ∀ {a b : α}, f a b = .eq → ∀ c, f b c = f a c)
    (ftr : ∀ {a b c : α}, f a b = .lt → f b c = .lt → f a c = .lt)
    (gtr : ∀ {a b c : α}, g a b = .lt → g b c = .lt → g a c = .lt)
    {a b c : α} (h1 : (f a b).then (g a b) = .lt)
    (h2 : (f b c).then (g b c) = .lt) : (f a c).then (g a c) = .lt := by
  rw [then_eq_lt_iff] at h1 h2 ⊢
  rcases h1 with h1 | ⟨h1e, h1g⟩
  · rcases h2 with h2 | ⟨h2e, h2g⟩
    · exact Or.inl (ftr h1 h2)
    · have hcb : f c b = .eq := by
        rw [fswap c b, h2e]
        rfl
      have hba : f b a = f c a := fsub hcb a
      have hac : f a c = f a b := by
        rw [fswap a c, ← hba, ← fswap a b]
      exact Or.inl (hac.trans h1)
  · have hsub := fsub h1e
    rcases h2 with h2 | ⟨h2e, h2g⟩
    · exact Or.inl ((hsub c).symm.trans h2)
    · exact Or.inr ⟨(hsub c).symm.trans h2e, gtr h1g h2g⟩

/-! ## The reference precedence order on versions -/

/-- Comparison of one numeric field of a version. -/
def fieldCmp (pr : SemVer → Nat) (a b : SemVer) : Ordering := cmpNat (pr a) (pr b)

theorem fieldCmp_swap (pr : SemVer → Nat) (a b : SemVer) :
    fieldCmp pr a b = (fieldCmp pr b a).swap :=
  cmpNat_swap (pr a) (pr b)

theorem fieldCmp_eq_subst (pr : SemVer → Nat) {a b : SemVer}
    (h : fieldCmp pr a b = .eq) (c : SemVer) :
    fieldCmp pr b c = fieldCmp pr a c := by
  have hpr : pr a = pr b := (cmpNat_eq_eq_iff (pr a) (pr b)).mp h
  rw [fieldCmp, fieldCmp, ← hpr]

theorem fieldCmp_trans_lt (pr : SemVer → Nat) {a b c : SemVer}
    (h1 : fieldCmp pr a b = .lt) (h2 : fieldCmp pr b c = .lt) :
    fieldCmp pr a c = .lt :=
  cmpNat_trans_lt h1 h2

def cmpPR (a b : SemVer) : Ordering := rcKeyCmp a.prerelease b.prerelease

def cmpPatchPR (a b : SemVer) : Ordering :=
  (fieldCmp SemVer.patch a b).then (cmpPR a b)

def cmpMinorPR (a b : SemVer) : Ordering :=
  (fieldCmp SemVer.minor a b).then (cmpPatchPR a b)

/-- Reference precedence: `semverCmp` with the prerelease rule replaced by
the reference order, provably equal to `semverCmp` on well-formed versions. -/
def semverKeyCmp (a b : SemVer) : Ordering :=
  (fieldCmp SemVer.major a b).then (cmpMinorPR a b)

theorem semverCmp_eq_key (a b : SemVer) (ha : a.wf = true) (hb : b.wf = true) :
    semverCmp a b = semverKeyCmp a b := by
  rw [SemVer.wf, Bool.and_eq_true] at ha hb
  rw [semverCmp, semverKeyCmp, cmpMinorPR, cmpPatchPR, cmpPR,
    cmpRc_eq_key a.prerelease b.prerelease ha.1 hb.1]
  rfl

theorem cmpPR_swap (a b : SemVer) : cmpPR a b = (cmpPR b a).swap :=
  rcKeyCmp_swap a.prerelease b.prerelease

theorem cmpPR_eq_subst {a b : SemVer} (h : cmpPR a b = .eq) (c : SemVer) :
    cmpPR b c = cmpPR a c :=
  rcKeyCmp_eq_subst h c.prerelease

theorem cmpPR_trans_lt {a b c : SemVer} (h1 : cmpPR a b = .lt)
    (h2 : cmpPR b c = .lt) : cmpPR a c = .lt :=
  rcKeyCmp_trans_lt h1 h2

theorem cmpPatchPR_swap (a b : SemVer) : cmpPatchPR a b = (cmpPatchPR b a).swap :=
  then_lex_swap (fieldCmp_swap SemVer.patch a b) (cmpPR_swap a b)

theorem cmpPatchPR_eq_subst {a b : SemVer} (h : cmpPatchPR a b = .eq)
    (c : SemVer) : cmpPatchPR b c = cmpPatchPR a c := by
  rw [cmpPatchPR] at h
  rw [cmpPatchPR, cmpPatchPR]
  exact lexComb_eq_subst (fieldCmp SemVer.patch) cmpPR
    (fun hf d => fieldCmp_eq_subst SemVer.patch hf d)
    (fun hg d => cmpPR_eq_subst hg d) h c

theorem cmpPatchPR_trans_lt {a b c : SemVer} (h1 : cmpPatchPR a b = .lt)
    (h2 : cmpPatchPR b c = .lt) : cmpPatchPR a c = .lt := by
  rw [cmpPatchPR] at h1 h2
  rw [cmpPatchPR]
  exact lexComb_trans_lt (fieldCmp SemVer.patch) cmpPR
    (fieldCmp_swap SemVer.patch)
    (fun hf d => fieldCmp_eq_subst SemVer.patch hf d)
    (fun hx hy => fieldCmp_trans_lt SemVer.patch hx hy)
    (fun hx hy => cmpPR_trans_lt hx hy) h1 h2

theorem cmpMinorPR_swap (a b : SemVer) : cmpMinorPR a b = (cmpMinorPR b a).swap :=
  then_lex_swap (fieldCmp_swap SemVer.minor a b) (cmpPatchPR_swap a b)

theorem cmpMinorPR_eq_subst {a b : SemVer} (h : cmpMinorPR a b = .eq)
    (c : SemVer) : cmpMinorPR b c = cmpMinorPR a c := by
  rw [cmpMinorPR] at h
  rw [cmpMinorPR, cmpMinorPR]
  exact lexComb_eq_subst (fieldCmp SemVer.minor) cmpPatchPR
    (fun hf d => fieldCmp_eq_subst SemVer.minor hf d)
    (fun hg d => cmpPatchPR_eq_subst hg d) h c

theorem cmpMinorPR_trans_lt {a b c : SemVer} (h1 : cmpMinorPR a b = .lt)
    (h2 : cmpMinorPR b c = .lt) : cmpMinorPR a c = .lt := by
  rw [cmpMinorPR] at h1 h2
  rw [cmpMinorPR]
  exact lexComb_trans_lt (fieldCmp SemVer.minor) cmpPatchPR
    (fieldCmp_swap SemVer.minor)
    (fun hf d => fieldCmp_eq_subst SemVer.minor hf d)
    (fun hx hy => fieldCmp_trans_lt SemVer.minor hx hy)
    (fun hx hy => cmpPatchPR_trans_lt hx hy) h1 h2

theorem semverKeyCmp_swap (a b : SemVer) :
    semverKeyCmp a b = (semverKeyCmp b a).swap :=
  then_lex_swap (fieldCmp_swap SemVer.major a b) (cmpMinorPR_swap a b)

theorem semverKeyCmp_eq_subst {a b : SemVer} (h : semverKeyCmp a b = .eq)
    (c : SemVer) : semverKeyCmp b c = semverKeyCmp a c := by
  rw [semverKeyCmp] at h
  rw [semverKeyCmp, semverKeyCmp]
  exact lexComb_eq_subst (fieldCmp SemVer.major) cmpMinorPR
    (fun hf d => fieldCmp_eq_subst SemVer.major hf d)
    (fun hg d => cmpMinorPR_eq_subst hg d) h c

theorem semverKeyCmp_trans_lt {a b c : SemVer} (h1 : semverKeyCmp a b = .lt)
    (h2 : semverKeyCmp b c = .lt) : semverKeyCmp a c = .lt := by
  rw [semverKeyCmp] at h1 h2
  rw [semverKeyCmp]
  exact lexComb_trans_lt (fieldCmp SemVer.major) cmpMinorPR
    (fieldCmp_swap SemVer.major)
    (fun hf d => fieldCmp_eq_subst SemVer.major hf d)
    (fun hx hy => fieldCmp_trans_lt SemVer.major hx hy)
    (fun hx hy => cmpMinorPR_trans_lt hx hy) h1 h2

theorem semverKeyCmp_le_trans {a b c : SemVer} (h1 : semverKeyCmp a b ≠ .gt)
    (h2 : semverKeyCmp b c ≠ .gt) : semverKeyCmp a c ≠ .gt := by
  have hlt1 : semverKeyCmp a b = .lt ∨ semverKeyCmp a b = .eq := by
    rcases h : semverKeyCmp a b with - | - | -
    · exact Or.inl rfl
    · exact Or.inr rfl
    · exact absurd h h1
  have hlt2 : semverKeyCmp b c = .lt ∨ semverKeyCmp b c = .eq := by
    rcases h : semverKeyCmp b c with - | - | -
    · exact Or.inl rfl
    · exact Or.inr rfl
    · exact absurd h h2
  rcases hlt1 with h1' | h1'
  · rcases hlt2 with h2' | h2'
    · rw [semverKeyCmp_trans_lt h1' h2']
      intro hc
      cases hc
    · have hcb : semverKeyCmp c b = .eq := by
        rw [semverKeyCmp_swap c b, h2']
        rfl
      have hac : semverKeyCmp a c = semverKeyCmp a b := by
        rw [semverKeyCmp_swap a c, ← semverKeyCmp_eq_subst hcb a,
          ← semverKeyCmp_swap a b]
      rw [hac, h1']
      intro hc
      cases hc
  · rw [semverKeyCmp_eq_subst h1' c] at h2
    exact h2

theorem rcKeyCmp_self (rc : Option String) : rcKeyCmp rc rc = .eq := by
  cases rc with
  | none => rfl
  | some s =>
    exact (lexList_eq_eq_iff cmpTag cmpTag_eq_eq_iff _ _).mpr rfl

theorem semverKeyCmp_self (a : SemVer) : semverKeyCmp a a = .eq := by
  rw [semverKeyCmp, cmpMinorPR, cmpPatchPR, cmpPR, rcKeyCmp_self]
  rw [show fieldCmp SemVer.major a a = .eq from (cmpNat_eq_eq_iff ..).mpr rfl]
  rw [show fieldCmp SemVer.minor a a = .eq from (cmpNat_eq_eq_iff ..).mpr rfl]
  rw [show fieldCmp SemVer.patch a a = .eq from (cmpNat_eq_eq_iff ..).mpr rfl]
  rfl

/-- On well-formed versions, precedence comparison is antisymmetric. -/
theorem semverCmp_swap_wf (a b : SemVer) (ha : a.wf = true) (hb : b.wf = true) :
    semverCmp a b = (semverCmp b a).swap := by
  rw [semverCmp_eq_key a b ha hb, semverCmp_eq_key b a hb ha]
  exact semverKeyCmp_swap a b

/-- A well-formed version compares equal to itself. -/
theorem semverCmp_self (a : SemVer) (ha : a.wf = true) : semverCmp a a = .eq := by
  rw [semverCmp_eq_key a a ha ha]
  exact semverKeyCmp_self a

/-- On well-formed versions, not-above is transitive: precedence is a total
preorder. -/
theorem semverCmp_le_trans {a b c : SemVer} (ha : a.wf = true) (hb : b.wf = true)
    (hc : c.wf = true) (h1 : semverCmp a b ≠ .gt) (h2 : semverCmp b c ≠ .gt) :
    semverCmp a c ≠ .gt := by
  rw [semverCmp_eq_key a b ha hb] at h1
  rw [semverCmp_eq_key b c hb hc] at h2
  rw [semverCmp_eq_key a c ha hc]
  exact semverKeyCmp_le_trans h1 h2

/-- Version values produced by the parser are grammar-well-formed. -/
theorem parse_wf (s : String) (v : SemVer) (h : SemVer.parse s = some v) :
    v.wf = true :=
  (parseVerC_eq_some s.data v h).2

/-- Version values produced by the parser print back to the parsed text. -/
theorem str_of_parse (s : String) (v : SemVer) (h : SemVer.parse s = some v) :
    v.str = s := by
  have h1 := (parseVerC_eq_some s.data v h).1
  show (⟨v.chars⟩ : String) = s
  rw [h1]

/-! ## Data model (`stores/core.py`) -/

inductive CreationStrategy where
  | from_previous_version
  | empty
  | with_content
deriving DecidableEq, Repr

/-- `PromptVersion: TypeAlias = SemanticVersion | str`. -/
inductive PromptVersion where
  | ver (v : SemVer)
  | raw (s : String)
deriving DecidableEq, Repr

/-- `str(version)` on either member of the alias. -/
def PromptVersion.asStr : PromptVersion → String
  | .ver v => v.str
  | .raw s => s

/-- `SemanticVersion.parse(version) if isinstance(version, str) else version`. -/
def PromptVersion.parsed : PromptVersion → Option SemVer
  | .ver v => some v
  | .raw s => SemVer.parse s

/-- `TemplateVersionMetadata`; `created_at` is an abstract timestamp. -/
structure TemplateVersionMetadata where
  template_id : String
  version : SemVer
  created_at : Nat
  description : Option String := none
  author : Option String := none
  tags : List String := []
  model : Option String := none
  changelog : List String := []
deriving DecidableEq, Repr

structure Template where
  id : String
  latest_version : SemVer
deriving DecidableEq, Repr

structure TemplateVersion where
  template_id : String
  version : SemVer
  metadata : TemplateVersionMetadata
deriving DecidableEq, Repr

/-! ## YAML documents at the value level -/

/-- One serialized field value of the metadata record, as
`model_dump(mode="json")` produces it: strings, lists of strings, a
timestamp in its textual form, or null. -/
inductive YVal where
  | str (s : String)
  | strList (l : List String)
  | time (t : Nat)
  | null
deriving DecidableEq, Repr

/-- A YAML mapping with string keys: the document shape `safe_dump` writes
and validation consumes. -/
abbrev MetaDoc := List (String × YVal)

/-- A YAML document as `safe_load` returns it: a mapping, or a bare scalar
when the text was not a mapping. -/
inductive YamlDoc where
  | dict (d : MetaDoc)
  | scalar (s : String)
deriving DecidableEq, Repr

def optY : Option String → YVal
  | none => .null
  | some s => .str s

/-- `metadata.model_dump(mode="json")`: every field serialized, the version
as its string form, sets and lists as lists. -/
def TemplateVersionMetadata.dump (m : TemplateVersionMetadata) : MetaDoc :=
  [("template_id", .str m.template_id),
   ("version", .str m.version.str),
   ("created_at", .time m.created_at),
   ("description", optY m.description),
   ("author", optY m.author),
   ("tags", .strList m.tags),
   ("model", optY m.model),
   ("changelog", .strList m.changelog)]

def getStrField (d : MetaDoc) (k : String) : Option String :=
  match List.lookup k d with
  | some (.str s) => some s
  | _ => none

def getOptStrField (d : MetaDoc) (k : String) : Option (Option String) :=
  match List.lookup k d with
  | none => some none
  | some .null => some none
  | some (.str s) => some (some s)
  | some _ => none

def getListField (d : MetaDoc) (k : String) : Option (List String) :=
  match List.lookup k d with
  | none => some []
  | some (.strList l) => some l
  | some _ => none

def getTimeField (d : MetaDoc) (k : String) (now : Nat) : Option Nat :=
  match List.lookup k d with
  | none => some now
  | some (.time t) => some t
  | some _ => none

/-- `TemplateVersionMetadata.model_validate`: required fields must be
present with the right type, optional fields default, `created_at` defaults
to the current time, unknown keys are ignored, and the version string is
parsed. `none` models the raised `ValidationError`. -/
def TemplateVersionMetadata.validate (doc : YamlDoc) (now : Nat) :
    Option TemplateVersionMetadata :=
  match doc with
  | .scalar _ => none
  | .dict d => do
    let tid ← getStrField d "template_id"
    let vs ← getStrField d "version"
    let v ← SemVer.parse vs
    let created ← getTimeField d "created_at" now
    let desc ← getOptStrField d "description"
    let author ← getOptStrField d "author"
    let tags ← getListField d "tags"
    let modelv ← getOptStrField d "model"
    let changelog ← getListField d "changelog"
    some ⟨tid, v, created, desc, author, tags, modelv, changelog⟩

/-- Grammar well-formedness of a metadata record: its version prints and
re-parses. -/
def TemplateVersionMetadata.wf (m : TemplateVersionMetadata) : Bool := m.version.wf

/-- The serialization round trip of the metadata record: dumping and
validating returns the record unchanged. -/
theorem validate_dump (m : TemplateVersionMetadata) (now : Nat)
    (h : m.wf = true) :
    TemplateVersionMetadata.validate (.dict m.dump) now = some m := by
  obtain ⟨tid, v, c, d, a, tg, mo, ch⟩ := m
  have hparse := parse_str v (by simpa [TemplateVersionMetadata.wf] using h)
  cases d <;> cases a <;> cases mo <;>
    simp [TemplateVersionMetadata.validate, TemplateVersionMetadata.dump,
      getStrField, getOptStrField, getListField, getTimeField, optY,
      List.lookup, hparse]

/-! ## Filesystem model -/

/-- A path: the component sequence below the filesystem root. -/
abbrev FsPath := List String

/-- Content of one file.  Template content files hold raw text; a metadata
file written by the store holds a YAML document; `badYaml` stands for a
text rejected by `yaml.safe_load`. -/
inductive FileData where
  | raw (s : String)
  | doc (d : MetaDoc)
  | badYaml (s : String)
deriving DecidableEq, Repr

/-- A filesystem state: the directories that exist and the files that exist
(the first entry for a path is its current content). -/
structure FS where
  dirs : List FsPath
  files : List (FsPath × FileData)
deriving DecidableEq, Repr

def FS.isDir (fs : FS) (p : FsPath) : Bool := fs.dirs.contains p

def FS.lookupFile (fs : FS) (p : FsPath) : Option FileData := List.lookup p fs.files

def FS.isFile (fs : FS) (p : FsPath) : Bool := (fs.lookupFile p).isSome

/-- `Path.exists`: true for a file or a directory. -/
def FS.pathExists (fs : FS) (p : FsPath) : Bool := fs.isDir p || fs.isFile p

/-- The distinguishable error kinds, by python exception class. -/
inductive Err where
  | templateNotFound
  | fileNotFound
  | alreadyExists
  | validationErr
  | valueErr
  | osErr
  | yamlErr
deriving DecidableEq, Repr

/-- Result of a store operation: a value, or a raised error. -/
inductive Res (α : Type) where
  | ok (a : α)
  | err (e : Err)
deriving DecidableEq, Repr

/-- `Path.read_text`: a missing file raises `FileNotFoundError`; reading a
directory raises `IsADirectoryError`, an `OSError`. -/
def FS.read_text (fs : FS) (p : FsPath) : Res FileData :=
  match fs.lookupFile p with
  | some d => .ok d
  | none => if fs.isDir p then .err .osErr else .err .fileNotFound

/-- `Path.write_text`: create or overwrite. -/
def FS.write_text (fs : FS) (p : FsPath) (d : FileData) : FS :=
  { fs with files := (p, d) :: fs.files }

def fsAncestors (p : FsPath) : List FsPath :=
  (List.range p.length).map fun i => p.take (i + 1)

/-- `Path.mkdir(parents=True, exist_ok=False)`, called by the store only
after its absence check: the directory and its missing ancestors come into
being (a conflicting regular file at an ancestor is not modelled). -/
def FS.mkdirParents (fs : FS) (p : FsPath) : FS :=
  { fs with dirs := fsAncestors p ++ fs.dirs }

def childNameOf (p q : FsPath) : Option String :=
  if q.take p.length = p ∧ q.length = p.length + 1 then q.getLast? else none

def FS.rawChildren (fs : FS) (p : FsPath) : List String :=
  (fs.dirs.filterMap (childNameOf p)) ++
    (fs.files.map Prod.fst).filterMap (childNameOf p)

def dedupAux {α : Type} [DecidableEq α] : List α → List α → List α
  | [], _ => []
  | x :: xs, seen =>
    if x ∈ seen then dedupAux xs seen else x :: dedupAux xs (x :: seen)

def dedupKeepFirst {α : Type} [DecidableEq α] (l : List α) : List α := dedupAux l []

/-- Python string `<=` as used by `sorted(..., key=lambda path: path.name)`. -/
def strLeB (a b : String) : Bool :=
  match cmpChars a.data b.data with
  | .gt => false
  | _ => true

def insertSorted {α : Type} (le : α → α → Bool) (x : α) : List α → List α
  | [] => [x]
  | y :: ys => if le x y then x :: y :: ys else y :: insertSorted le x ys

def sortByLe {α : Type} (le : α → α → Bool) : List α → List α
  | [] => []
  | x :: xs => insertSorted le x (sortByLe le xs)

/-- The entry names of a directory, each exactly once, in python string
order. -/
def FS.childNames (fs : FS) (p : FsPath) : List String :=
  sortByLe strLeB (dedupKeepFirst (fs.rawChildren p))

/-- `sorted(path.iterdir(), ...)`: raises `FileNotFoundError` when the
directory is absent and `NotADirectoryError` (an `OSError`) on a file. -/
def FS.iterdirSorted (fs : FS) (p : FsPath) : Res (List String) :=
  if fs.isDir p then .ok (fs.childNames p)
  else if fs.isFile p then .err .osErr
  else .err .fileNotFound

/-! ## The local template store (`stores/local.py`) -/

/-- Store configuration after `__init__` resolved the defaults. -/
structure Store where
  base_path : FsPath
  initial_version : SemVer := ⟨1, 0, 0, none, none⟩
  template_file_name : String := "template.md"
  metadata_file_name : String := "metadata.yml"
deriving DecidableEq, Repr

/-- `_get_template_path`: `base_path / template_id / str(version) /
template_file_name`. -/
def Store.template_path (st : Store) (tid : String) (version : PromptVersion) :
    FsPath :=
  st.base_path ++ [tid, version.asStr, st.template_file_name]

/-- `_get_metadata_path`. -/
def Store.metadata_path (st : Store) (tid : String) (version : PromptVersion) :
    FsPath :=
  st.base_path ++ [tid, version.asStr, st.metadata_file_name]

/-- `yaml.safe_load` at the document level: raw text loads as a scalar, a
stored document as a mapping, `badYaml` raises `yaml.YAMLError`. -/
def safe_load : FileData → Res YamlDoc
  | .raw s => .ok (.scalar s)
  | .doc d => .ok (.dict d)
  | .badYaml _ => .err .yamlErr

/-- `yaml.safe_dump` at the document level. -/
def safe_dump (d : MetaDoc) : FileData := .doc d

/-- `_read_prompt_metadata`: explicit existence check, then read, parse and
validate. -/
def Store.read_prompt_metadata (st : Store) (fs : FS) (p : FsPath) (now : Nat) :
    Res TemplateVersionMetadata :=
  if !fs.pathExists p then .err .templateNotFound
  else
    match fs.read_text p with
    | .err e => .err e
    | .ok fd =>
      match safe_load fd with
      | .err e => .err e
      | .ok ydoc =>
        match TemplateVersionMetadata.validate ydoc now with
        | some m => .ok m
        | none => .err .validationErr

/-- `get_template_version`: parse a string version, read and validate the
metadata, require the template file to exist. -/
def Store.get_template_version (st : Store) (fs : FS) (tid : String)
    (pv : PromptVersion) (now : Nat) : Res TemplateVersion :=
  match pv.parsed with
  | none => .err .valueErr
  | some v =>
    match st.read_prompt_metadata fs (st.metadata_path tid (.ver v)) now with
    | .err e => .err e
    | .ok metadata =>
      if fs.pathExists (st.template_path tid (.ver v)) then
        .ok ⟨tid, v, metadata⟩
      else .err .templateNotFound

/-- The loop of `list_template_versions`: non-directories are skipped,
`TemplateNotFoundError` and `(ValidationError, ValueError, OSError)` on one
child are logged and skipped, anything else propagates. -/
def Store.collect_versions (st : Store) (fs : FS) (tid : String) (now : Nat) :
    List String → Res (List TemplateVersion)
  | [] => .ok []
  | name :: rest =>
    if !fs.isDir (st.base_path ++ [tid, name]) then
      st.collect_versions fs tid now rest
    else
      match st.get_template_version fs tid (.raw name) now with
      | .ok tv =>
        match st.collect_versions fs tid now rest with
        | .ok l => .ok (tv :: l)
        | .err e => .err e
      | .err .templateNotFound => st.collect_versions fs tid now rest
      | .err .yamlErr => .err .yamlErr
      | .err _ => st.collect_versions fs tid now rest

/-- `list_template_versions`. -/
def Store.list_template_versions (st : Store) (fs : FS) (tid : String)
    (now : Nat) : Res (List TemplateVersion) :=
  if !fs.pathExists (st.base_path ++ [tid]) || !fs.isDir (st.base_path ++ [tid]) then
    .err .templateNotFound
  else
    st.collect_versions fs tid now (fs.childNames (st.base_path ++ [tid]))

/-- `max(versions, key=lambda x: x.version)`: python max keeps the current
champion unless a later element compares strictly greater. -/
def maxByVersion (versions : List TemplateVersion) : Option TemplateVersion :=
  match versions with
  | [] => none
  | h :: t => some (t.foldl (fun acc x =>
      if semverCmp x.version acc.version = .gt then x else acc) h)

/-- `get_latest_version`. -/
def Store.get_latest_version (st : Store) (fs : FS) (tid : String) (now : Nat) :
    Res TemplateVersion :=
  match st.list_template_versions fs tid now with
  | .err e => .err e
  | .ok versions =>
    match maxByVersion versions with
    | none => .err .templateNotFound
    | some latest => .ok latest

/-- `get_template`: the latest version's version; `TemplateNotFoundError`
re-raised with a template-level message. -/
def Store.get_template (st : Store) (fs : FS) (tid : String) (now : Nat) :
    Res Template :=
  match st.get_latest_version fs tid now with
  | .ok lv => .ok ⟨tid, lv.version⟩
  | .err .templateNotFound => .err .templateNotFound
  | .err e => .err e

/-- The loop of `list_templates`: non-directories skipped, a template with
no valid versions logged and skipped, `(ValidationError, ValueError,
OSError)` logged and skipped, anything else propagates. -/
def Store.collect_templates (st : Store) (fs : FS) (now : Nat) :
    List String → Res (List Template)
  | [] => .ok []
  | name :: rest =>
    if !fs.isDir (st.base_path ++ [name]) then
      st.collect_templates fs now rest
    else
      match st.get_latest_version fs name now with
      | .ok lv =>
        match st.collect_templates fs now rest with
        | .ok l => .ok (⟨name, lv.version⟩ :: l)
        | .err e => .err e
      | .err .templateNotFound => st.collect_templates fs now rest
      | .err .yamlErr => .err .yamlErr
      | .err _ => st.collect_templates fs now rest

/-- `list_templates`: iterate the base directory in name order. -/
def Store.list_templates (st : Store) (fs : FS) (now : Nat) :
    Res (List Template) :=
  match fs.iterdirSorted st.base_path with
  | .err e => .err e
  | .ok names => st.collect_templates fs now names

/-- The content-selection phase of `create_version` (strategy semantics,
run before the collision check). -/
def Store.compute_content (st : Store) (fs : FS) (tid : String)
    (strategy : CreationStrategy) (content : Option String) (now : Nat) :
    Res FileData :=
  match strategy with
  | .with_content =>
    match content with
    | none => .ok (.raw "")
    | some c => .ok (.raw c)
  | .empty => .ok (.raw "")
  | .from_previous_version =>
    match st.get_latest_version fs tid now with
    | .ok latest => fs.read_text (st.template_path tid (.ver latest.version))
    | .err .templateNotFound => .ok (.raw "")
    | .err e => .err e

/-- `metadata or TemplateVersionMetadata(...)`: the default record built
after the directory claim, parsing a string version. -/
def Store.metadata_or_default (tid : String) (pv : PromptVersion)
    (metadata : Option TemplateVersionMetadata) (now : Nat) :
    Res TemplateVersionMetadata :=
  match metadata with
  | some m => .ok m
  | none =>
    match pv.parsed with
    | some v => .ok ⟨tid, v, now, none, none, [], none, []⟩
    | none => .err .valueErr

/-- `create_version`; the second component is the filesystem after the
call, whether it returned or raised. -/
def Store.create_version (st : Store) (fs : FS) (tid : String)
    (pv : PromptVersion) (metadata : Option TemplateVersionMetadata)
    (strategy : CreationStrategy) (content : Option String) (now : Nat) :
    Res Unit × FS :=
  match st.compute_content fs tid strategy content now with
  | .err e => (.err e, fs)
  | .ok template_content =>
    let version_path := st.base_path ++ [tid, pv.asStr]
    if fs.pathExists version_path then (.err .alreadyExists, fs)
    else
      let fs1 := fs.mkdirParents version_path
      match Store.metadata_or_default tid pv metadata now with
      | .err e => (.err e, fs1)
      | .ok md =>
        let fs2 := fs1.write_text (st.metadata_path tid pv) (safe_dump md.dump)
        let fs3 := fs2.write_text (st.template_path tid pv) template_content
        (.ok (), fs3)

/-- `create_template`: an initial empty version. -/
def Store.create_template (st : Store) (fs : FS) (tid : String) (now : Nat) :
    Res Unit × FS :=
  st.create_version fs tid (.ver st.initial_version) none .empty none now

/-- `get_template_version_content`: a bare `read_text` of the template
path, with no version parsing and no metadata check; the returned
`FileData` stands for the file text. -/
def Store.get_template_version_content (st : Store) (fs : FS) (tid : String)
    (pv : PromptVersion) : Res FileData :=
  fs.read_text (st.template_path tid pv)

/-! ## Elementary facts about the filesystem model -/

theorem lookup_write_self (fs : FS) (p : FsPath) (d : FileData) :
    (fs.write_text p d).lookupFile p = some d := by
  simp [FS.write_text, FS.lookupFile, List.lookup]

theorem lookup_write_other (fs : FS) (p q : FsPath) (d : FileData) (h : q ≠ p) :
    (fs.write_text p d).lookupFile q = fs.lookupFile q := by
  have hb : (q == p) = false := beq_eq_false_iff_ne.mpr h
  simp [FS.write_text, FS.lookupFile, List.lookup, hb]

theorem isDir_write (fs : FS) (p q : FsPath) (d : FileData) :
    (fs.write_text p d).isDir q = fs.isDir q := rfl

theorem isFile_write_self (fs : FS) (p : FsPath) (d : FileData) :
    (fs.write_text p d).isFile p = true := by
  simp [FS.isFile, lookup_write_self]

theorem isFile_write_other (fs : FS) (p q : FsPath) (d : FileData) (h : q ≠ p) :
    (fs.write_text p d).isFile q = fs.isFile q := by
  simp [FS.isFile, lookup_write_other fs p q d h]

theorem lookup_mkdir (fs : FS) (p q : FsPath) :
    (fs.mkdirParents p).lookupFile q = fs.lookupFile q := rfl

theorem isFile_mkdir (fs : FS) (p q : FsPath) :
    (fs.mkdirParents p).isFile q = fs.isFile q := rfl

theorem mkdir_isDir_self (fs : FS) (p : FsPath) (h : p ≠ []) :
    (fs.mkdirParents p).isDir p = true := by
  have hl : 0 < p.length := List.length_pos.mpr h
  have hmem : p ∈ fsAncestors p := by
    rw [fsAncestors]
    refine List.mem_map.mpr ⟨p.length - 1, ?_, ?_⟩
    · rw [List.mem_range]
      omega
    · have h1 : p.length - 1 + 1 = p.length := by omega
      rw [h1, List.take_length]
  simp only [FS.mkdirParents, FS.isDir]
  simp only [List.contains_eq_any_beq, List.any_eq_true, beq_iff_eq]
  exact ⟨p, List.mem_append.mpr (Or.inl hmem), rfl⟩

theorem mkdir_isDir_of (fs : FS) (p q : FsPath) (h : fs.isDir q = true) :
    (fs.mkdirParents p).isDir q = true := by
  simp only [FS.mkdirParents, FS.isDir, List.contains_eq_any_beq,
    List.any_eq_true, beq_iff_eq] at h ⊢
  obtain ⟨x, hx, hqx⟩ := h
  exact ⟨x, List.mem_append.mpr (Or.inr hx), hqx⟩

/-- The two file paths of one version differ when the two configured file
names differ. -/
theorem template_path_ne_metadata_path (st : Store) (tid : String)
    (pv qv : PromptVersion) (h : st.template_file_name ≠ st.metadata_file_name) :
    st.template_path tid pv ≠ st.metadata_path tid qv := by
  intro he
  rw [Store.template_path, Store.metadata_path] at he
  have h2 : ([tid, pv.asStr, st.template_file_name] : List String) =
      [tid, qv.asStr, st.metadata_file_name] := List.append_cancel_left he
  simp only [List.cons.injEq] at h2
  exact h h2.2.2.1

/-- `str(version)` agrees across the two members of the alias once the
string form parses to the version. -/
theorem pv_asStr_of_parsed (pv : PromptVersion) (v : SemVer)
    (h : pv.parsed = some v) : pv.asStr = v.str := by
  cases pv with
  | ver w =>
    have hw : w = v := Option.some.inj h
    subst hw
    rfl
  | raw s =>
    exact (str_of_parse s v h).symm

/-! ## Sorting and deduplication -/

theorem insertSorted_perm {α : Type} (le : α → α → Bool) (x : α) (l : List α) :
    List.Perm (insertSorted le x l) (x :: l) := by
  induction l with
  | nil => exact List.Perm.refl _
  | cons y ys ih =>
    rw [insertSorted]
    by_cases hle : le x y = true
    · rw [if_pos hle]
    · rw [if_neg hle]
      exact List.Perm.trans (List.Perm.cons y ih) (List.Perm.swap x y ys)

theorem sortByLe_perm {α : Type} (le : α → α → Bool) (l : List α) :
    List.Perm (sortByLe le l) l := by
  induction l with
  | nil => exact List.Perm.refl _
  | cons x xs ih =>
    exact List.Perm.trans (insertSorted_perm le x (sortByLe le xs))
      (List.Perm.cons x ih)

theorem insertSorted_sorted {α : Type} (le : α → α → Bool)
    (htot : ∀ a b, le a b = true ∨ le b a = true)
    (htr : ∀ {a b c}, le a b = true → le b c = true → le a c = true)
    (x : α) (l : List α)
    (h : List.Pairwise (fun a b => le a b = true) l) :
    List.Pairwise (fun a b => le a b = true) (insertSorted le x l) := by
  induction l with
  | nil => simp [insertSorted]
  | cons y ys ih =>
    rw [insertSorted]
    rcases List.pairwise_cons.mp h with ⟨hy, hys⟩
    by_cases hle : le x y = true
    · rw [if_pos hle]
      refine List.pairwise_cons.mpr ⟨?_, h⟩
      intro z hz
      rcases List.mem_cons.mp hz with rfl | hz
      · exact hle
      · exact htr hle (hy z hz)
    · rw [if_neg hle]
      refine List.pairwise_cons.mpr ⟨?_, ih hys⟩
      intro z hz
      have hz' := (insertSorted_perm le x ys).mem_iff.mp hz
      rcases List.mem_cons.mp hz' with rfl | hz'
      · rcases htot y z with h' | h'
        · exact h'
        · rw [h'] at hle
          cases hle rfl
      · exact hy z hz'

theorem sortByLe_sorted {α : Type} (le : α → α → Bool)
    (htot : ∀ a b, le a b = true ∨ le b a = true)
    (htr : ∀ {a b c}, le a b = true → le b c = true → le a c = true)
    (l : List α) :
    List.Pairwise (fun a b => le a b = true) (sortByLe le l) := by
  induction l with
  | nil => simp [sortByLe]
  | cons x xs ih => exact insertSorted_sorted le htot htr x (sortByLe le xs) ih

theorem mem_dedupAux {α : Type} [DecidableEq α] (l : List α) :
    ∀ seen x, x ∈ dedupAux l seen ↔ x ∈ l ∧ x ∉ seen := by
  induction l with
  | nil =>
    intro seen x
    simp [dedupAux]
  | cons y ys ih =>
    intro seen x
    rw [dedupAux]
    by_cases hy : y ∈ seen
    · rw [if_pos hy, ih seen x]
      constructor
      · rintro ⟨hx, hns⟩
        exact ⟨List.mem_cons_of_mem y hx, hns⟩
      · rintro ⟨hx, hns⟩
        rcases List.mem_cons.mp hx with rfl | hx
        · exact absurd hy hns
        · exact ⟨hx, hns⟩
    · rw [if_neg hy]
      constructor
      · intro hx
        rcases List.mem_cons.mp hx with rfl | hx
        · exact ⟨List.mem_cons_self _ _, hy⟩
        · rcases (ih (y :: seen) x).mp hx with ⟨h1, h2⟩
          exact ⟨List.mem_cons_of_mem y h1,
            fun hc => h2 (List.mem_cons_of_mem y hc)⟩
      · rintro ⟨hx, hns⟩
        rcases List.mem_cons.mp hx with rfl | hx
        · exact List.mem_cons_self x _
        · by_cases hxy : x = y
          · subst hxy
            exact List.mem_cons_self x _
          · refine List.mem_cons_of_mem y ((ih (y :: seen) x).mpr ⟨hx, ?_⟩)
            intro hc
            rcases List.mem_cons.mp hc with h' | h'
            · exact hxy h'
            · exact hns h'

theorem dedupAux_nodup {α : Type} [DecidableEq α] (l : List α) :
    ∀ seen, List.Nodup (dedupAux l seen) := by
  induction l with
  | nil =>
    intro seen
    simp [dedupAux]
  | cons y ys ih =>
    intro seen
    rw [dedupAux]
    by_cases hy : y ∈ seen
    · rw [if_pos hy]
      exact ih seen
    · rw [if_neg hy]
      refine List.nodup_cons.mpr ⟨?_, ih (y :: seen)⟩
      intro hc
      exact ((mem_dedupAux ys (y :: seen) y).mp hc).2 (List.mem_cons_self y seen)

theorem dedupKeepFirst_nodup {α : Type} [DecidableEq α] (l : List α) :
    List.Nodup (dedupKeepFirst l) := dedupAux_nodup l []

theorem mem_dedupKeepFirst {α : Type} [DecidableEq α] (l : List α) (x : α) :
    x ∈ dedupKeepFirst l ↔ x ∈ l := by
  rw [dedupKeepFirst, mem_dedupAux]
  simp

theorem childNames_nodup (fs : FS) (p : FsPath) : List.Nodup (fs.childNames p) :=
  ((sortByLe_perm strLeB _).nodup_iff).mpr (dedupKeepFirst_nodup _)

theorem mem_childNames (fs : FS) (p : FsPath) (x : String) :
    x ∈ fs.childNames p ↔ x ∈ fs.rawChildren p := by
  rw [FS.childNames, (sortByLe_perm strLeB _).mem_iff, mem_dedupKeepFirst]

theorem strLeB_total (a b : String) : strLeB a b = true ∨ strLeB b a = true := by
  rw [strLeB, strLeB]
  rcases hc : cmpChars a.data b.data with - | - | -
  · exact Or.inl rfl
  · exact Or.inl rfl
  · right
    have hsw := cmpChars_swap b.data a.data
    rw [hc] at hsw
    rw [hsw]
    rfl

theorem strLeB_iff (a b : String) :
    strLeB a b = true ↔ cmpChars a.data b.data ≠ .gt := by
  rw [strLeB]
  rcases hc : cmpChars a.data b.data with - | - | - <;> simp

theorem cmpChars_le_trans {a b c : List Char} (h1 : cmpChars a b ≠ .gt)
    (h2 : cmpChars b c ≠ .gt) : cmpChars a c ≠ .gt := by
  have hlt1 : cmpChars a b = .lt ∨ cmpChars a b = .eq := by
    rcases h : cmpChars a b with - | - | -
    · exact Or.inl rfl
    · exact Or.inr rfl
    · exact absurd h h1
  have hlt2 : cmpChars b c = .lt ∨ cmpChars b c = .eq := by
    rcases h : cmpChars b c with - | - | -
    · exact Or.inl rfl
    · exact Or.inr rfl
    · exact absurd h h2
  rcases hlt2 with h2' | h2'
  · rcases hlt1 with h1' | h1'
    · rw [cmpChars_trans_lt h1' h2']
      intro hcon
      cases hcon
    · have hab := (cmpChars_eq_eq_iff a b).mp h1'
      subst hab
      rw [h2']
      intro hcon
      cases hcon
  · have hbc := (cmpChars_eq_eq_iff b c).mp h2'
    subst hbc
    exact h1

theorem strLeB_trans {a b c : String} (h1 : strLeB a b = true)
    (h2 : strLeB b c = true) : strLeB a c = true := by
  rw [strLeB_iff] at h1 h2 ⊢
  exact cmpChars_le_trans h1 h2

theorem childNames_sorted (fs : FS) (p : FsPath) :
    List.Pairwise (fun a b => strLeB a b = true) (fs.childNames p) :=
  sortByLe_sorted strLeB strLeB_total (fun h1 h2 => strLeB_trans h1 h2) _

/-! ## Facts about the scan loops -/

theorem get_template_version_raw_wf (st : Store) (fs : FS) (tid s : String)
    (now : Nat) (tv : TemplateVersion)
    (h : st.get_template_version fs tid (.raw s) now = .ok tv) :
    tv.version.wf = true ∧ SemVer.parse s = some tv.version ∧
      tv.version.str = s := by
  rw [Store.get_template_version] at h
  split at h
  · cases h
  next v hv =>
    have hp' : SemVer.parse s = some v := hv
    split at h
    · cases h
    next md hmd =>
      split at h
      · have hveq := Res.ok.inj h
        subst hveq
        exact ⟨parse_wf s v hp', hp', str_of_parse s v hp'⟩
      · cases h

theorem collect_versions_ok_facts (st : Store) (fs : FS) (tid : String)
    (now : Nat) :
    ∀ names l, st.collect_versions fs tid now names = .ok l →
      (∀ tv ∈ l, tv.version.wf = true) ∧
      List.Sublist (l.map fun tv => tv.version.str) names := by
  intro names
  induction names with
  | nil =>
    intro l h
    have hl := Res.ok.inj h
    subst hl
    exact ⟨by simp, by simp⟩
  | cons name rest ih =>
    intro l h
    rw [Store.collect_versions] at h
    by_cases hd : fs.isDir (st.base_path ++ [tid, name]) = true
    · rw [hd] at h
      simp only [Bool.not_true] at h
      rw [if_neg (by simp)] at h
      cases hg : st.get_template_version fs tid (.raw name) now with
      | ok tv =>
        rw [hg] at h
        cases hc : st.collect_versions fs tid now rest with
        | ok l2 =>
          rw [hc] at h
          have hl := Res.ok.inj h
          subst hl
          obtain ⟨hwf, hsub⟩ := ih l2 hc
          obtain ⟨htvwf, -, hstr⟩ := get_template_version_raw_wf st fs tid name now tv hg
          refine ⟨?_, ?_⟩
          · intro u hu
            rcases List.mem_cons.mp hu with rfl | hu
            · exact htvwf
            · exact hwf u hu
          · show ((tv :: l2).map fun tv => tv.version.str).Sublist (name :: rest)
            rw [List.map_cons, hstr]
            exact List.Sublist.cons₂ name hsub
        | err e =>
          rw [hc] at h
          cases h
      | err e =>
        rw [hg] at h
        rcases e with - | - | - | - | - | - | -
        · obtain ⟨hwf, hsub⟩ := ih l h
          exact ⟨hwf, hsub.cons name⟩
        · obtain ⟨hwf, hsub⟩ := ih l h
          exact ⟨hwf, hsub.cons name⟩
        · obtain ⟨hwf, hsub⟩ := ih l h
          exact ⟨hwf, hsub.cons name⟩
        · obtain ⟨hwf, hsub⟩ := ih l h
          exact ⟨hwf, hsub.cons name⟩
        · obtain ⟨hwf, hsub⟩ := ih l h
          exact ⟨hwf, hsub.cons name⟩
        · obtain ⟨hwf, hsub⟩ := ih l h
          exact ⟨hwf, hsub.cons name⟩
        · cases h
    · rw [Bool.not_eq_true] at hd
      rw [hd] at h
      simp only [Bool.not_false] at h
      rw [if_pos trivial] at h
      obtain ⟨hwf, hsub⟩ := ih l h
      exact ⟨hwf, hsub.cons name⟩

theorem collect_versions_err_yaml (st : Store) (fs : FS) (tid : String)
    (now : Nat) :
    ∀ names e, st.collect_versions fs tid now names = .err e → e = .yamlErr := by
  intro names
  induction names with
  | nil =>
    intro e h
    cases h
  | cons name rest ih =>
    intro e h
    rw [Store.collect_versions] at h
    by_cases hd : fs.isDir (st.base_path ++ [tid, name]) = true
    · rw [hd] at h
      simp only [Bool.not_true] at h
      rw [if_neg (by simp)] at h
      cases hg : st.get_template_version fs tid (.raw name) now with
      | ok tv =>
        rw [hg] at h
        cases hc : st.collect_versions fs tid now rest with
        | ok l2 =>
          rw [hc] at h
          cases h
        | err e2 =>
          rw [hc] at h
          have he := Res.err.inj h
          subst he
          exact ih e2 hc
      | err e2 =>
        rw [hg] at h
        rcases e2 with - | - | - | - | - | - | -
        all_goals first
          | exact ih e h
          | (have he := Res.err.inj h
             subst he
             rfl)
    · rw [Bool.not_eq_true] at hd
      rw [hd] at h
      simp only [Bool.not_false] at h
      rw [if_pos trivial] at h
      exact ih e h

theorem collect_versions_total (st : Store) (fs : FS) (tid : String) (now : Nat) :
    ∀ names, (∀ n ∈ names,
        st.get_template_version fs tid (.raw n) now ≠ .err .yamlErr) →
      ∃ l, st.collect_versions fs tid now names = .ok l := by
  intro names
  induction names with
  | nil =>
    intro h
    exact ⟨[], rfl⟩
  | cons name rest ih =>
    intro h
    obtain ⟨l2, hl2⟩ := ih fun n hn => h n (List.mem_cons_of_mem name hn)
    rw [Store.collect_versions]
    by_cases hd : fs.isDir (st.base_path ++ [tid, name]) = true
    · rw [hd]
      simp only [Bool.not_true]
      rw [if_neg (by simp)]
      cases hg : st.get_template_version fs tid (.raw name) now with
      | ok tv =>
        rw [hl2]
        exact ⟨tv :: l2, rfl⟩
      | err e =>
        rcases e with - | - | - | - | - | - | -
        all_goals first
          | exact ⟨l2, hl2⟩
          | exact absurd hg (h name (List.mem_cons_self name rest))
    · rw [Bool.not_eq_true] at hd
      rw [hd]
      simp only [Bool.not_false]
      rw [if_pos trivial]
      exact ⟨l2, hl2⟩

/-! ## The maximum of a version list -/

theorem foldl_version_max (t : List TemplateVersion) :
    ∀ h0 : TemplateVersion, (∀ tv ∈ h0 :: t, tv.version.wf = true) →
    (t.foldl (fun acc x => if semverCmp x.version acc.version = .gt then x else acc)
        h0) ∈ h0 :: t ∧
    ∀ tv ∈ h0 :: t, semverCmp tv.version
      (t.foldl (fun acc x => if semverCmp x.version acc.version = .gt then x else acc)
        h0).version ≠ .gt := by
  induction t with
  | nil =>
    intro h0 hwf
    refine ⟨List.mem_singleton.mpr rfl, ?_⟩
    intro tv htv
    rcases List.mem_singleton.mp htv with rfl
    rw [List.foldl_nil, semverCmp_self tv.version (hwf tv (List.mem_cons_self tv []))]
    intro hc
    cases hc
  | cons y t ih =>
    intro h0 hwf
    have hwf_h0 : h0.version.wf = true := hwf h0 (List.mem_cons_self h0 (y :: t))
    have hwf_y : y.version.wf = true :=
      hwf y (List.mem_cons_of_mem h0 (List.mem_cons_self y t))
    rw [List.foldl_cons]
    by_cases hgt : semverCmp y.version h0.version = .gt
    · rw [if_pos hgt]
      have hwf' : ∀ tv ∈ y :: t, tv.version.wf = true := by
        intro tv htv
        rcases List.mem_cons.mp htv with rfl | htv
        · exact hwf_y
        · exact hwf tv (List.mem_cons_of_mem h0 (List.mem_cons_of_mem y htv))
      obtain ⟨hmem, hbound⟩ := ih y hwf'
      refine ⟨List.mem_cons_of_mem h0 hmem, ?_⟩
      intro tv htv
      have hrwf := hwf' _ hmem
      rcases List.mem_cons.mp htv with rfl | htv
      · have h0y : semverCmp tv.version y.version ≠ .gt := by
          rw [semverCmp_swap_wf tv.version y.version hwf_h0 hwf_y, hgt]
          intro hc
          cases hc
        have hyr := hbound y (List.mem_cons_self y t)
        exact semverCmp_le_trans hwf_h0 hwf_y hrwf h0y hyr
      · exact hbound tv htv
    · rw [if_neg hgt]
      have hwf' : ∀ tv ∈ h0 :: t, tv.version.wf = true := by
        intro tv htv
        rcases List.mem_cons.mp htv with rfl | htv
        · exact hwf_h0
        · exact hwf tv (List.mem_cons_of_mem h0 (List.mem_cons_of_mem y htv))
      obtain ⟨hmem, hbound⟩ := ih h0 hwf'
      refine ⟨?_, ?_⟩
      · rcases List.mem_cons.mp hmem with he | hm
        · rw [he]
          exact List.mem_cons_self h0 (y :: t)
        · exact List.mem_cons_of_mem h0 (List.mem_cons_of_mem y hm)
      · intro tv htv
        have hrwf := hwf' _ hmem
        rcases List.mem_cons.mp htv with rfl | htv
        · exact hbound tv (List.mem_cons_self tv t)
        · rcases List.mem_cons.mp htv with rfl | htv2
          · have h0r := hbound h0 (List.mem_cons_self h0 t)
            exact semverCmp_le_trans hwf_y hwf_h0 hrwf hgt h0r
          · exact hbound tv (List.mem_cons_of_mem h0 htv2)

theorem maxByVersion_spec (l : List TemplateVersion)
    (hwf : ∀ tv ∈ l, tv.version.wf = true) (m : TemplateVersion)
    (h : maxByVersion l = some m) :
    m ∈ l ∧ ∀ tv ∈ l, semverCmp tv.version m.version ≠ .gt := by
  cases l with
  | nil => cases h
  | cons h0 t =>
    have hm := Option.some.inj h
    obtain ⟨hmem, hbound⟩ := foldl_version_max t h0 hwf
    rw [hm] at hmem hbound
    exact ⟨hmem, hbound⟩

/-! ## Elimination principles for the read operations -/

theorem get_latest_ok_elim (st : Store) (fs : FS) (tid : String) (now : Nat)
    (lv : TemplateVersion)
    (h : st.get_latest_version fs tid now = .ok lv) :
    ∃ l, st.list_template_versions fs tid now = .ok l ∧
      maxByVersion l = some lv := by
  rw [Store.get_latest_version] at h
  split at h
  · cases h
  next versions hversions =>
    split at h
    · cases h
    next latest hlatest =>
      have hl := Res.ok.inj h
      subst hl
      exact ⟨versions, hversions, hlatest⟩

theorem get_template_ok_elim (st : Store) (fs : FS) (tid : String) (now : Nat)
    (t : Template) (h : st.get_template fs tid now = .ok t) :
    ∃ lv, st.get_latest_version fs tid now = .ok lv ∧
      t = ⟨tid, lv.version⟩ := by
  rw [Store.get_template] at h
  split at h
  next lv hlv => exact ⟨lv, hlv, (Res.ok.inj h).symm⟩
  next => cases h
  next => cases h

theorem list_template_versions_ok_facts (st : Store) (fs : FS) (tid : String)
    (now : Nat) (l : List TemplateVersion)
    (h : st.list_template_versions fs tid now = .ok l) :
    (∀ tv ∈ l, tv.version.wf = true) ∧
      List.Sublist (l.map fun tv => tv.version.str)
        (fs.childNames (st.base_path ++ [tid])) := by
  rw [Store.list_template_versions] at h
  split at h
  · cases h
  · exact collect_versions_ok_facts st fs tid now _ l h

/-! ## Unfolding `create_version` -/

theorem create_version_unfold (st : Store) (fs : FS) (tid : String)
    (pv : PromptVersion) (metadata : Option TemplateVersionMetadata)
    (strategy : CreationStrategy) (content : Option String) (now : Nat) :
    st.create_version fs tid pv metadata strategy content now =
      match st.compute_content fs tid strategy content now with
      | .err e => (.err e, fs)
      | .ok tc =>
        if fs.pathExists (st.base_path ++ [tid, pv.asStr]) then
          (.err .alreadyExists, fs)
        else
          match Store.metadata_or_default tid pv metadata now with
          | .err e => (.err e, fs.mkdirParents (st.base_path ++ [tid, pv.asStr]))
          | .ok md =>
            (.ok (), ((fs.mkdirParents (st.base_path ++ [tid, pv.asStr])).write_text
                (st.metadata_path tid pv) (safe_dump md.dump)).write_text
                (st.template_path tid pv) tc) := rfl

/-! ## Claim theorems -/

/-- Claim C1: when the version listing of a template succeeds and
`get_template` succeeds, the returned `latest_version` is one of the listed
versions and no listed version is above it in semantic-version precedence;
and when the listing is empty, both `get_latest_version` and `get_template`
fail with NotFound. -/
theorem claim1_latest_is_max (st : Store) (fs : FS) (tid : String) (now : Nat) :
    (∀ l t, st.list_template_versions fs tid now = .ok l →
      st.get_template fs tid now = .ok t →
      ∃ tv ∈ l, tv.version = t.latest_version ∧
        ∀ u ∈ l, semverCmp u.version t.latest_version ≠ .gt) ∧
    (st.list_template_versions fs tid now = .ok [] →
      st.get_latest_version fs tid now = .err .templateNotFound ∧
      st.get_template fs tid now = .err .templateNotFound) := by
  constructor
  · intro l t hl ht
    obtain ⟨lv, hlv, hteq⟩ := get_template_ok_elim st fs tid now t ht
    obtain ⟨l2, hl2, hmax⟩ := get_latest_ok_elim st fs tid now lv hlv
    rw [hl] at hl2
    have hleq := Res.ok.inj hl2
    subst hleq
    obtain ⟨hwf, -⟩ := list_template_versions_ok_facts st fs tid now l hl
    obtain ⟨hmem, hbound⟩ := maxByVersion_spec l hwf lv hmax
    subst hteq
    exact ⟨lv, hmem, rfl, hbound⟩
  · intro hempty
    have hgl : st.get_latest_version fs tid now = .err .templateNotFound := by
      rw [Store.get_latest_version, hempty]
      rfl
    refine ⟨hgl, ?_⟩
    rw [Store.get_template, hgl]

/-- Claim C2: creating a version with explicit content and a caller-supplied
metadata record, then immediately reading it back, returns the same metadata
record and exactly the written content. -/
theorem claim2_create_read_round_trip (st : Store) (fs : FS) (tid : String)
    (pv : PromptVersion) (v : SemVer) (m : TemplateVersionMetadata)
    (content : String) (now : Nat)
    (hname : st.template_file_name ≠ st.metadata_file_name)
    (hpv : pv.parsed = some v)
    (hm : m.wf = true)
    (habs : fs.pathExists (st.base_path ++ [tid, pv.asStr]) = false) :
    (st.create_version fs tid pv (some m) .with_content (some content) now).1 =
      .ok () ∧
    st.get_template_version
      (st.create_version fs tid pv (some m) .with_content (some content) now).2
      tid pv now = .ok ⟨tid, v, m⟩ ∧
    st.get_template_version_content
      (st.create_version fs tid pv (some m) .with_content (some content) now).2
      tid pv = .ok (.raw content) := by
  have hcc : st.compute_content fs tid .with_content (some content) now =
      .ok (.raw content) := rfl
  have hmd : Store.metadata_or_default tid pv (some m) now = .ok m := rfl
  have hcr : st.create_version fs tid pv (some m) .with_content (some content) now =
      (.ok (), ((fs.mkdirParents (st.base_path ++ [tid, pv.asStr])).write_text
          (st.metadata_path tid pv) (safe_dump m.dump)).write_text
          (st.template_path tid pv) (.raw content)) := by
    rw [create_version_unfold, hcc]
    show (if fs.pathExists (st.base_path ++ [tid, pv.asStr]) = true then _ else _) = _
    rw [habs]
    simp only [Bool.false_eq_true, if_false]
    rw [hmd]
  rw [hcr]
  refine ⟨rfl, ?_, ?_⟩
  · -- reading the version back
    have hmpath : st.metadata_path tid (.ver v) = st.metadata_path tid pv := by
      rw [Store.metadata_path, Store.metadata_path, PromptVersion.asStr,
        pv_asStr_of_parsed pv v hpv]
    have htpath : st.template_path tid (.ver v) = st.template_path tid pv := by
      rw [Store.template_path, Store.template_path, PromptVersion.asStr,
        pv_asStr_of_parsed pv v hpv]
    have hne := template_path_ne_metadata_path st tid pv pv hname
    simp only [Store.get_template_version, hpv]
    rw [hmpath, htpath]
    have hlook : (((fs.mkdirParents (st.base_path ++ [tid, pv.asStr])).write_text
        (st.metadata_path tid pv) (safe_dump m.dump)).write_text
        (st.template_path tid pv) (.raw content)).lookupFile
        (st.metadata_path tid pv) = some (safe_dump m.dump) := by
      rw [lookup_write_other _ _ _ _ (Ne.symm hne), lookup_write_self]
    have hmex : (((fs.mkdirParents (st.base_path ++ [tid, pv.asStr])).write_text
        (st.metadata_path tid pv) (safe_dump m.dump)).write_text
        (st.template_path tid pv) (.raw content)).pathExists
        (st.metadata_path tid pv) = true := by
      rw [FS.pathExists]
      have : (((fs.mkdirParents (st.base_path ++ [tid, pv.asStr])).write_text
          (st.metadata_path tid pv) (safe_dump m.dump)).write_text
          (st.template_path tid pv) (.raw content)).isFile
          (st.metadata_path tid pv) = true := by
        rw [FS.isFile, hlook]
        rfl
      rw [this, Bool.or_true]
    have hrm : Store.read_prompt_metadata st
        (((fs.mkdirParents (st.base_path ++ [tid, pv.asStr])).write_text
          (st.metadata_path tid pv) (safe_dump m.dump)).write_text
          (st.template_path tid pv) (.raw content))
        (st.metadata_path tid pv) now = .ok m := by
      rw [Store.read_prompt_metadata, hmex]
      simp only [Bool.not_true, Bool.false_eq_true, if_false]
      rw [FS.read_text, hlook]
      show (match TemplateVersionMetadata.validate (.dict m.dump) now with
        | some mm => (.ok mm : Res TemplateVersionMetadata)
        | none => .err .validationErr) = .ok m
      rw [validate_dump m now hm]
    rw [hrm]
    have htex : (((fs.mkdirParents (st.base_path ++ [tid, pv.asStr])).write_text
        (st.metadata_path tid pv) (safe_dump m.dump)).write_text
        (st.template_path tid pv) (.raw content)).pathExists
        (st.template_path tid pv) = true := by
      rw [FS.pathExists, isFile_write_self, Bool.or_true]
    rw [htex]
    simp
  · rw [Store.get_template_version_content, FS.read_text, lookup_write_self]

/-- Claim C3 (counterexample): with the metadata file absent but the content
file present, `get_template_version` fails with NotFound while
`get_template_version_content` succeeds, so the two operations do not fail
under the same conditions. -/
theorem claim3_counterexample :
    Store.get_template_version { base_path := ["b"] }
        ⟨[["b"], ["b", "t"], ["b", "t", "1.0.0"]],
         [(["b", "t", "1.0.0", "template.md"], .raw "hi")]⟩ "t" (.raw "1.0.0") 0 =
      .err .templateNotFound ∧
    Store.get_template_version_content { base_path := ["b"] }
        ⟨[["b"], ["b", "t"], ["b", "t", "1.0.0"]],
         [(["b", "t", "1.0.0", "template.md"], .raw "hi")]⟩ "t" (.raw "1.0.0") =
      .ok (.raw "hi") := by
  decide

/-- Claim C3 (amended): `get_template_version_content` fails with NotFound
exactly when no entry exists at the template-content path, and succeeds
exactly when a content file is present there, independently of the metadata
file. -/
theorem claim3_content_read_characterization (st : Store) (fs : FS)
    (tid : String) (pv : PromptVersion) :
    (st.get_template_version_content fs tid pv = .err .fileNotFound ↔
      fs.pathExists (st.template_path tid pv) = false) ∧
    ((∃ d, st.get_template_version_content fs tid pv = .ok d) ↔
      fs.isFile (st.template_path tid pv) = true) := by
  rw [Store.get_template_version_content, FS.read_text]
  cases hlk : fs.lookupFile (st.template_path tid pv) with
  | some d =>
    have hf : fs.isFile (st.template_path tid pv) = true := by
      rw [FS.isFile, hlk]
      rfl
    constructor
    · constructor
      · intro hc
        cases hc
      · intro hc
        rw [FS.pathExists, hf, Bool.or_true] at hc
        cases hc
    · constructor
      · intro hc
        exact hf
      · intro hc
        exact ⟨d, rfl⟩
  | none =>
    have hf : fs.isFile (st.template_path tid pv) = false := by
      rw [FS.isFile, hlk]
      rfl
    by_cases hd : fs.isDir (st.template_path tid pv) = true
    · rw [if_pos hd]
      constructor
      · constructor
        · intro hc
          cases hc
        · intro hc
          rw [FS.pathExists, hf, hd] at hc
          cases hc
      · constructor
        · rintro ⟨d, hc⟩
          cases hc
        · intro hc
          rw [hf] at hc
          cases hc
    · rw [if_neg hd]
      rw [Bool.not_eq_true] at hd
      constructor
      · constructor
        · intro hc
          rw [FS.pathExists, hf, hd]
          rfl
        · intro hc
          rfl
      · constructor
        · rintro ⟨d, hc⟩
          cases hc
        · intro hc
          rw [hf] at hc
          cases hc

/-! ## Concrete fixtures for the executable checks -/

/-- A store rooted at `b` with the default file names. -/
def exStore : Store := { base_path := ["b"] }

/-- A metadata record for template `t` at a given version. -/
def exMeta (v : SemVer) : TemplateVersionMetadata :=
  ⟨"t", v, 0, none, none, [], none, []⟩

/-- A filesystem holding template `t` with two valid versions. -/
def exFs : FS :=
  ⟨[["b"], ["b", "t"], ["b", "t", "1.0.0"], ["b", "t", "2.0.0"]],
   [(["b", "t", "1.0.0", "metadata.yml"], safe_dump (exMeta ⟨1, 0, 0, none, none⟩).dump),
    (["b", "t", "1.0.0", "template.md"], .raw "one"),
    (["b", "t", "2.0.0", "metadata.yml"], safe_dump (exMeta ⟨2, 0, 0, none, none⟩).dump),
    (["b", "t", "2.0.0", "template.md"], .raw "two")]⟩

/-- A filesystem holding template directory `t` with no versions. -/
def exEmptyFs : FS := ⟨[["b"], ["b", "t"]], []⟩

/-- What a successful `create_version` implies: the content phase succeeded,
the version directory was new, the metadata resolved, and the final state is
the two writes over the created directory. -/
theorem create_version_ok_elim (st : Store) (fs : FS) (tid : String)
    (pv : PromptVersion) (mo : Option TemplateVersionMetadata)
    (strategy : CreationStrategy) (content : Option String) (now : Nat)
    (h : (st.create_version fs tid pv mo strategy content now).1 = .ok ()) :
    ∃ tc md, st.compute_content fs tid strategy content now = .ok tc ∧
      fs.pathExists (st.base_path ++ [tid, pv.asStr]) = false ∧
      Store.metadata_or_default tid pv mo now = .ok md ∧
      (st.create_version fs tid pv mo strategy content now).2 =
        ((fs.mkdirParents (st.base_path ++ [tid, pv.asStr])).write_text
          (st.metadata_path tid pv) (safe_dump md.dump)).write_text
          (st.template_path tid pv) tc := by
  rw [create_version_unfold] at h
  split at h
  next e he => simp at h
  next tc htc =>
    split at h
    next hex => simp at h
    next hex =>
      rw [Bool.not_eq_true] at hex
      split at h
      next e he => simp at h
      next md hmd =>
        refine ⟨tc, md, htc, hex, hmd, ?_⟩
        rw [create_version_unfold]
        simp [htc, hex, hmd]

/-- Claim C4: after a successful `create_version`, a second call for the
same template id and version string whose content-selection phase succeeds
fails with AlreadyExists and returns the filesystem unchanged, so both files
written by the first call are untouched. -/
theorem claim4_second_create_already_exists (st : Store) (fs fs1 : FS)
    (tid : String) (pv : PromptVersion)
    (m1 m2 : Option TemplateVersionMetadata) (s1 s2 : CreationStrategy)
    (c1 c2 : Option String) (now1 now2 : Nat)
    (h1 : st.create_version fs tid pv m1 s1 c1 now1 = (.ok (), fs1))
    (h2 : ∃ tc, st.compute_content fs1 tid s2 c2 now2 = .ok tc) :
    st.create_version fs1 tid pv m2 s2 c2 now2 = (.err .alreadyExists, fs1) := by
  obtain ⟨tc2, htc2⟩ := h2
  have h1' : (st.create_version fs tid pv m1 s1 c1 now1).1 = .ok () := by
    rw [h1]
  obtain ⟨tc, md, htc, habs, hmd, hsnd⟩ :=
    create_version_ok_elim st fs tid pv m1 s1 c1 now1 h1'
  have hfs1 : fs1 = ((fs.mkdirParents (st.base_path ++ [tid, pv.asStr])).write_text
      (st.metadata_path tid pv) (safe_dump md.dump)).write_text
      (st.template_path tid pv) tc := by
    rw [← hsnd, h1]
  have hvp : fs1.pathExists (st.base_path ++ [tid, pv.asStr]) = true := by
    rw [hfs1, FS.pathExists, isDir_write, isDir_write,
      mkdir_isDir_self fs _ (by simp)]
    rfl
  rw [create_version_unfold]
  simp only [htc2]
  rw [hvp]
  simp

/-- Claim C5: with the FROM_PREVIOUS_VERSION strategy, when the template has
a latest version whose content file reads as X, the created version stores
exactly X; when the template has no prior version, the call succeeds and
stores the empty string. -/
theorem claim5_from_previous_snapshot (st : Store) (fs : FS) (tid : String)
    (pv : PromptVersion) (mo : Option TemplateVersionMetadata)
    (c : Option String) (now : Nat) (md : TemplateVersionMetadata)
    (habs : fs.pathExists (st.base_path ++ [tid, pv.asStr]) = false)
    (hmd : Store.metadata_or_default tid pv mo now = .ok md) :
    (∀ lv X, st.get_latest_version fs tid now = .ok lv →
      fs.read_text (st.template_path tid (.ver lv.version)) = .ok X →
      (st.create_version fs tid pv mo .from_previous_version c now).1 = .ok () ∧
      (st.create_version fs tid pv mo .from_previous_version c now).2.read_text
        (st.template_path tid pv) = .ok X) ∧
    (st.get_latest_version fs tid now = .err .templateNotFound →
      (st.create_version fs tid pv mo .from_previous_version c now).1 = .ok () ∧
      (st.create_version fs tid pv mo .from_previous_version c now).2.read_text
        (st.template_path tid pv) = .ok (.raw "")) := by
  constructor
  · intro lv X hlv hX
    have hcc : st.compute_content fs tid .from_previous_version c now = .ok X := by
      show (match st.get_latest_version fs tid now with
        | .ok latest => fs.read_text (st.template_path tid (.ver latest.version))
        | .err .templateNotFound => .ok (.raw "")
        | .err e => .err e) = .ok X
      rw [hlv]
      exact hX
    have hcr : st.create_version fs tid pv mo .from_previous_version c now =
        (.ok (), ((fs.mkdirParents (st.base_path ++ [tid, pv.asStr])).write_text
          (st.metadata_path tid pv) (safe_dump md.dump)).write_text
          (st.template_path tid pv) X) := by
      rw [create_version_unfold, hcc]
      show (if fs.pathExists (st.base_path ++ [tid, pv.asStr]) = true then _ else _) = _
      rw [habs]
      simp only [Bool.false_eq_true, if_false]
      rw [hmd]
    rw [hcr]
    refine ⟨rfl, ?_⟩
    rw [FS.read_text, lookup_write_self]
  · intro hlv
    have hcc : st.compute_content fs tid .from_previous_version c now =
        .ok (.raw "") := by
      show (match st.get_latest_version fs tid now with
        | .ok latest => fs.read_text (st.template_path tid (.ver latest.version))
        | .err .templateNotFound => .ok (.raw "")
        | .err e => .err e) = .ok (.raw "")
      rw [hlv]
    have hcr : st.create_version fs tid pv mo .from_previous_version c now =
        (.ok (), ((fs.mkdirParents (st.base_path ++ [tid, pv.asStr])).write_text
          (st.metadata_path tid pv) (safe_dump md.dump)).write_text
          (st.template_path tid pv) (.raw "")) := by
      rw [create_version_unfold, hcc]
      show (if fs.pathExists (st.base_path ++ [tid, pv.asStr]) = true then _ else _) = _
      rw [habs]
      simp only [Bool.false_eq_true, if_false]
      rw [hmd]
    rw [hcr]
    refine ⟨rfl, ?_⟩
    rw [FS.read_text, lookup_write_self]

/-- Claim C6: a supplied content argument never influences a call with a
strategy other than WITH_CONTENT, and a successful EMPTY-strategy creation
stores the empty string. -/
theorem claim6_content_ignored (st : Store) (fs : FS) (tid : String)
    (pv : PromptVersion) (mo : Option TemplateVersionMetadata)
    (c c' : Option String) (now : Nat) :
    (∀ strategy, strategy ≠ CreationStrategy.with_content →
      st.create_version fs tid pv mo strategy c now =
        st.create_version fs tid pv mo strategy c' now) ∧
    ((st.create_version fs tid pv mo .empty c now).1 = .ok () →
      (st.create_version fs tid pv mo .empty c now).2.read_text
        (st.template_path tid pv) = .ok (.raw "")) := by
  constructor
  · intro strategy hs
    cases strategy with
    | from_previous_version => rfl
    | empty => rfl
    | with_content => exact absurd rfl hs
  · intro h
    obtain ⟨tc, md, htc, habs, hmd, hsnd⟩ :=
      create_version_ok_elim st fs tid pv mo .empty c now h
    have h2 : (Res.ok (FileData.raw "") : Res FileData) = .ok tc := htc
    have htc' : tc = .raw "" := (Res.ok.inj h2).symm
    rw [hsnd, htc', FS.read_text, lookup_write_self]

/-- Claim C10: creating with an unparseable version string and no metadata
first claims the directory, then fails with ValueError: the directory is
created, no file is written, and a repeated call whose content phase
succeeds now fails with AlreadyExists. -/
theorem claim10_parse_failure_after_mkdir (st : Store) (fs : FS)
    (tid s : String) (strategy : CreationStrategy) (c : Option String)
    (now : Nat) (tc : FileData)
    (hparse : SemVer.parse s = none)
    (habs : fs.pathExists (st.base_path ++ [tid, s]) = false)
    (hcc : st.compute_content fs tid strategy c now = .ok tc) :
    st.create_version fs tid (.raw s) none strategy c now =
      (.err .valueErr, fs.mkdirParents (st.base_path ++ [tid, s])) ∧
    (∀ p, (fs.mkdirParents (st.base_path ++ [tid, s])).lookupFile p =
      fs.lookupFile p) ∧
    (∀ s2 c2 mo2 now2 tc2,
      st.compute_content (fs.mkdirParents (st.base_path ++ [tid, s])) tid
        s2 c2 now2 = .ok tc2 →
      st.create_version (fs.mkdirParents (st.base_path ++ [tid, s])) tid
        (.raw s) mo2 s2 c2 now2 =
        (.err .alreadyExists, fs.mkdirParents (st.base_path ++ [tid, s]))) := by
  refine ⟨?_, ?_, ?_⟩
  · rw [create_version_unfold]
    simp only [hcc, PromptVersion.asStr]
    rw [habs]
    simp only [Bool.false_eq_true, if_false]
    simp only [Store.metadata_or_default, PromptVersion.parsed, hparse]
  · intro p
    exact lookup_mkdir fs _ p
  · intro s2 c2 mo2 now2 tc2 htc2
    have hvp : (fs.mkdirParents (st.base_path ++ [tid, s])).pathExists
        (st.base_path ++ [tid, s]) = true := by
      rw [FS.pathExists, mkdir_isDir_self fs _ (by simp)]
      rfl
    rw [create_version_unfold]
    simp only [htc2, PromptVersion.asStr]
    rw [hvp]
    simp

/-- Executable check for claim C4 on a concrete store state. -/
theorem claim4_witness :
    exStore.create_version
      (exStore.create_version exEmptyFs "t" (.raw "1.0.0") none
        .with_content (some "x") 0).2
      "t" (.raw "1.0.0") none .with_content (some "y") 1 =
      (.err .alreadyExists,
       (exStore.create_version exEmptyFs "t" (.raw "1.0.0") none
         .with_content (some "x") 0).2) :=
  claim4_second_create_already_exists exStore exEmptyFs _ "t" (.raw "1.0.0")
    none none .with_content .with_content (some "x") (some "y") 0 1
    (by decide) ⟨.raw "y", by decide⟩

/-- Executable check for claim C5 on a concrete store state. -/
theorem claim5_witness :
    ((exStore.create_version exFs "t" (.raw "3.0.0") none
       .from_previous_version none 0).1 = .ok () ∧
     (exStore.create_version exFs "t" (.raw "3.0.0") none
       .from_previous_version none 0).2.read_text
       (exStore.template_path "t" (.raw "3.0.0")) = .ok (.raw "two")) ∧
    ((exStore.create_version exEmptyFs "t" (.raw "1.0.0") none
       .from_previous_version none 0).1 = .ok () ∧
     (exStore.create_version exEmptyFs "t" (.raw "1.0.0") none
       .from_previous_version none 0).2.read_text
       (exStore.template_path "t" (.raw "1.0.0")) = .ok (.raw "")) := by
  constructor
  · exact (claim5_from_previous_snapshot exStore exFs "t" (.raw "3.0.0") none
      none 0 (exMeta ⟨3, 0, 0, none, none⟩) (by decide) (by decide)).1
      ⟨"t", ⟨2, 0, 0, none, none⟩, exMeta ⟨2, 0, 0, none, none⟩⟩ (.raw "two")
      (by decide) (by decide)
  · exact (claim5_from_previous_snapshot exStore exEmptyFs "t" (.raw "1.0.0")
      none none 0 (exMeta ⟨1, 0, 0, none, none⟩) (by decide) (by decide)).2
      (by decide)

/-- Executable check for claim C6 on a concrete store state. -/
theorem claim6_witness :
    (exStore.create_version exEmptyFs "t" (.raw "1.0.0") none .empty
       (some "x") 0 =
     exStore.create_version exEmptyFs "t" (.raw "1.0.0") none .empty none 0) ∧
    (exStore.create_version exEmptyFs "t" (.raw "1.0.0") none .empty
       (some "x") 0).2.read_text
      (exStore.template_path "t" (.raw "1.0.0")) = .ok (.raw "") := by
  constructor
  · exact (claim6_content_ignored exStore exEmptyFs "t" (.raw "1.0.0") none
      (some "x") none 0).1 .empty (by decide)
  · exact (claim6_content_ignored exStore exEmptyFs "t" (.raw "1.0.0") none
      (some "x") none 0).2 (by decide)

/-- Executable check for claim C10 on a concrete store state. -/
theorem claim10_witness :
    exStore.create_version exEmptyFs "t" (.raw "abc") none .with_content
      (some "x") 0 =
      (.err .valueErr, exEmptyFs.mkdirParents ["b", "t", "abc"]) ∧
    (exEmptyFs.mkdirParents ["b", "t", "abc"]).lookupFile
      ["b", "t", "abc", "template.md"] =
      exEmptyFs.lookupFile ["b", "t", "abc", "template.md"] ∧
    exStore.create_version (exEmptyFs.mkdirParents ["b", "t", "abc"]) "t"
      (.raw "abc") none .with_content (some "y") 1 =
      (.err .alreadyExists, exEmptyFs.mkdirParents ["b", "t", "abc"]) := by
  refine ⟨?_, ?_, ?_⟩
  · exact (claim10_parse_failure_after_mkdir exStore exEmptyFs "t" "abc"
      .with_content (some "x") 0 (.raw "x") (by decide) (by decide)
      (by decide)).1
  · exact (claim10_parse_failure_after_mkdir exStore exEmptyFs "t" "abc"
      .with_content (some "x") 0 (.raw "x") (by decide) (by decide)
      (by decide)).2.1 ["b", "t", "abc", "template.md"]
  · exact (claim10_parse_failure_after_mkdir exStore exEmptyFs "t" "abc"
      .with_content (some "x") 0 (.raw "x") (by decide) (by decide)
      (by decide)).2.2 .with_content (some "y") none 1 (.raw "y") (by decide)

/-- The two versions listed for template `t` on the two-version fixture. -/
def exVersions : List TemplateVersion :=
  [⟨"t", ⟨1, 0, 0, none, none⟩, exMeta ⟨1, 0, 0, none, none⟩⟩,
   ⟨"t", ⟨2, 0, 0, none, none⟩, exMeta ⟨2, 0, 0, none, none⟩⟩]

/-- A filesystem holding template `t` whose only version has an unparseable
metadata file. -/
def badYamlFs : FS :=
  ⟨[["b"], ["b", "t"], ["b", "t", "1.0.0"]],
   [(["b", "t", "1.0.0", "metadata.yml"], .badYaml "x"),
    (["b", "t", "1.0.0", "template.md"], .raw "hi")]⟩

/-- A filesystem holding template `t` with two versions that differ only in
build metadata, hence compare equal in precedence. -/
def buildFs : FS :=
  ⟨[["b"], ["b", "t"], ["b", "t", "1.0.0+a"], ["b", "t", "1.0.0+b"]],
   [(["b", "t", "1.0.0+a", "metadata.yml"],
       safe_dump (exMeta ⟨1, 0, 0, none, some "a"⟩).dump),
    (["b", "t", "1.0.0+a", "template.md"], .raw "pa"),
    (["b", "t", "1.0.0+b", "metadata.yml"],
       safe_dump (exMeta ⟨1, 0, 0, none, some "b"⟩).dump),
    (["b", "t", "1.0.0+b", "template.md"], .raw "pb")]⟩

/-- Executable check for claim C1 on a concrete store state. -/
theorem claim1_witness :
    (∃ tv ∈ exVersions,
      tv.version = Template.latest_version ⟨"t", ⟨2, 0, 0, none, none⟩⟩ ∧
      ∀ u ∈ exVersions,
        semverCmp u.version
          (Template.latest_version ⟨"t", ⟨2, 0, 0, none, none⟩⟩) ≠ .gt) ∧
    (exStore.get_latest_version exEmptyFs "t" 0 = .err .templateNotFound ∧
     exStore.get_template exEmptyFs "t" 0 = .err .templateNotFound) := by
  constructor
  · exact (claim1_latest_is_max exStore exFs "t" 0).1 exVersions
      ⟨"t", ⟨2, 0, 0, none, none⟩⟩ (by decide) (by decide)
  · exact (claim1_latest_is_max exStore exEmptyFs "t" 0).2 (by decide)

/-- Executable check for claim C2 on a concrete store state. -/
theorem claim2_witness :
    (exStore.create_version exEmptyFs "t" (.raw "1.0.0")
       (some (exMeta ⟨1, 0, 0, none, none⟩)) .with_content (some "x") 0).1 =
      .ok () ∧
    exStore.get_template_version
      (exStore.create_version exEmptyFs "t" (.raw "1.0.0")
        (some (exMeta ⟨1, 0, 0, none, none⟩)) .with_content (some "x") 0).2
      "t" (.raw "1.0.0") 0 =
      .ok ⟨"t", ⟨1, 0, 0, none, none⟩, exMeta ⟨1, 0, 0, none, none⟩⟩ ∧
    exStore.get_template_version_content
      (exStore.create_version exEmptyFs "t" (.raw "1.0.0")
        (some (exMeta ⟨1, 0, 0, none, none⟩)) .with_content (some "x") 0).2
      "t" (.raw "1.0.0") = .ok (.raw "x") :=
  claim2_create_read_round_trip exStore exEmptyFs "t" (.raw "1.0.0")
    ⟨1, 0, 0, none, none⟩ (exMeta ⟨1, 0, 0, none, none⟩) "x" 0
    (by decide) (by decide) (by decide) (by decide)

/-- Executable check for claim C3 on a concrete store state. -/
theorem claim3_witness :
    (exStore.get_template_version_content exFs "t" (.raw "9.9.9") =
        .err .fileNotFound ↔
      exFs.pathExists (exStore.template_path "t" (.raw "9.9.9")) = false) ∧
    ((∃ d, exStore.get_template_version_content exFs "t" (.raw "9.9.9") =
        .ok d) ↔
      exFs.isFile (exStore.template_path "t" (.raw "9.9.9")) = true) :=
  claim3_content_read_characterization exStore exFs "t" (.raw "9.9.9")

/-- Claim C7: `list_template_versions` fails with NotFound exactly when the
template path is not a directory; any other failure is a YAML parse error
escaping the scan; when the directory exists and no child's metadata is
unparseable YAML, the call returns a list. -/
theorem claim7_list_versions_error_conditions (st : Store) (fs : FS)
    (tid : String) (now : Nat) :
    (st.list_template_versions fs tid now = .err .templateNotFound ↔
      fs.isDir (st.base_path ++ [tid]) = false) ∧
    (∀ e, st.list_template_versions fs tid now = .err e →
      e = .templateNotFound ∨ e = .yamlErr) ∧
    ((∀ n ∈ fs.childNames (st.base_path ++ [tid]),
        st.get_template_version fs tid (.raw n) now ≠ .err .yamlErr) →
      fs.isDir (st.base_path ++ [tid]) = true →
      ∃ l, st.list_template_versions fs tid now = .ok l) := by
  refine ⟨⟨?_, ?_⟩, ?_, ?_⟩
  · intro h
    by_cases hd : fs.isDir (st.base_path ++ [tid]) = true
    · exfalso
      have hpe : fs.pathExists (st.base_path ++ [tid]) = true := by
        rw [FS.pathExists, hd]
        rfl
      rw [Store.list_template_versions, hpe, hd] at h
      simp only [Bool.not_true, Bool.or_self, Bool.false_eq_true, if_false] at h
      have h2 := collect_versions_err_yaml st fs tid now _ .templateNotFound h
      cases h2
    · rw [Bool.not_eq_true] at hd
      exact hd
  · intro hd
    rw [Store.list_template_versions]
    have hc : (!fs.pathExists (st.base_path ++ [tid]) ||
        !fs.isDir (st.base_path ++ [tid])) = true := by
      rw [hd]
      simp
    rw [if_pos hc]
  · intro e h
    rw [Store.list_template_versions] at h
    split at h
    · exact Or.inl (Res.err.inj h).symm
    · exact Or.inr (collect_versions_err_yaml st fs tid now _ e h)
  · intro hclean hd
    obtain ⟨l, hl⟩ := collect_versions_total st fs tid now _ hclean
    have hpe : fs.pathExists (st.base_path ++ [tid]) = true := by
      rw [FS.pathExists, hd]
      rfl
    rw [Store.list_template_versions, hpe, hd]
    simp only [Bool.not_true, Bool.or_self, Bool.false_eq_true, if_false]
    exact ⟨l, hl⟩

/-- Claim C7 (counterexample): a single corrupt child inside an existing
template directory makes the whole listing raise the YAML error. -/
theorem claim7_counterexample :
    badYamlFs.isDir ["b", "t"] = true ∧
    exStore.list_template_versions badYamlFs "t" 0 = .err .yamlErr := by
  decide

/-- Executable check for claim C7 on a concrete store state. -/
theorem claim7_witness :
    ∃ l, exStore.list_template_versions exFs "t" 0 = .ok l :=
  (claim7_list_versions_error_conditions exStore exFs "t" 0).2.2
    (by decide) (by decide)

/-- Claim C8: within one template the listed versions are unique per version
string, and the collision check of `create_version` rejects an exact string
match of an existing version directory. -/
theorem claim8_version_uniqueness_per_string (st : Store) (fs : FS)
    (tid : String) (now : Nat) (l : List TemplateVersion)
    (h : st.list_template_versions fs tid now = .ok l) :
    (l.map fun tv => tv.version.str).Nodup ∧
    (∀ pv mo strat c now2 tc,
      st.compute_content fs tid strat c now2 = .ok tc →
      fs.pathExists (st.base_path ++ [tid, pv.asStr]) = true →
      st.create_version fs tid pv mo strat c now2 = (.err .alreadyExists, fs)) := by
  constructor
  · obtain ⟨-, hsub⟩ := list_template_versions_ok_facts st fs tid now l h
    exact List.Nodup.sublist hsub (childNames_nodup fs _)
  · intro pv mo strat c now2 tc htc hex
    rw [create_version_unfold]
    simp only [htc]
    rw [hex]
    simp

/-- Claim C8 (counterexample): two versions that differ only in build
metadata coexist in one template; they are distinct version strings but
equal in semantic-version precedence, and a third such version can still be
created. -/
theorem claim8_counterexample :
    exStore.list_template_versions buildFs "t" 0 =
      .ok [⟨"t", ⟨1, 0, 0, none, some "a"⟩, exMeta ⟨1, 0, 0, none, some "a"⟩⟩,
           ⟨"t", ⟨1, 0, 0, none, some "b"⟩, exMeta ⟨1, 0, 0, none, some "b"⟩⟩] ∧
    semverCmp ⟨1, 0, 0, none, some "a"⟩ ⟨1, 0, 0, none, some "b"⟩ = .eq ∧
    (⟨1, 0, 0, none, some "a"⟩ : SemVer) ≠ ⟨1, 0, 0, none, some "b"⟩ ∧
    (exStore.create_version buildFs "t" (.raw "1.0.0+c") none .empty
      none 0).1 = .ok () := by
  decide

/-- Executable check for claim C8 on a concrete store state. -/
theorem claim8_witness :
    (exVersions.map fun tv => tv.version.str).Nodup ∧
    exStore.create_version exFs "t" (.raw "1.0.0") none .empty none 0 =
      (.err .alreadyExists, exFs) := by
  constructor
  · exact (claim8_version_uniqueness_per_string exStore exFs "t" 0 exVersions
      (by decide)).1
  · exact (claim8_version_uniqueness_per_string exStore exFs "t" 0 exVersions
      (by decide)).2 (.raw "1.0.0") none .empty none 0 (.raw "")
      (by decide) (by decide)

/-- The loop of `list_templates` succeeds when no directory child's version
scan raises a YAML error; the result enumerates, in input order, exactly the
directory children with a latest version. -/
theorem collect_templates_facts (st : Store) (fs : FS) (now : Nat) :
    ∀ names, (∀ n ∈ names, fs.isDir (st.base_path ++ [n]) = true →
        st.get_latest_version fs n now ≠ .err .yamlErr) →
      ∃ ts, st.collect_templates fs now names = .ok ts ∧
        (ts.map Template.id).Sublist names ∧
        (∀ t ∈ ts, ∃ lv, st.get_latest_version fs t.id now = .ok lv ∧
          t.latest_version = lv.version) ∧
        (∀ n ∈ names, fs.isDir (st.base_path ++ [n]) = true →
          ∀ lv, st.get_latest_version fs n now = .ok lv →
            n ∈ ts.map Template.id) := by
  intro names
  induction names with
  | nil =>
    intro hc
    exact ⟨[], rfl, by simp, by simp, by simp⟩
  | cons name rest ih =>
    intro hc
    obtain ⟨ts, hts, hsub, hval, hmem⟩ :=
      ih fun n hn hdn => hc n (List.mem_cons_of_mem name hn) hdn
    rw [Store.collect_templates]
    by_cases hd : fs.isDir (st.base_path ++ [name]) = true
    · rw [hd]
      simp only [Bool.not_true]
      rw [if_neg (by simp)]
      cases hg : st.get_latest_version fs name now with
      | ok lv =>
        rw [hts]
        refine ⟨⟨name, lv.version⟩ :: ts, rfl, ?_, ?_, ?_⟩
        · show (Template.id ⟨name, lv.version⟩ :: ts.map Template.id).Sublist
            (name :: rest)
          exact List.Sublist.cons₂ name hsub
        · intro t ht
          rcases List.mem_cons.mp ht with rfl | ht
          · exact ⟨lv, hg, rfl⟩
          · exact hval t ht
        · intro n hn hdn lv2 hlv2
          rcases List.mem_cons.mp hn with rfl | hn
          · exact List.mem_cons_self _ _
          · exact List.mem_cons_of_mem _ (hmem n hn hdn lv2 hlv2)
      | err e =>
        rcases e with - | - | - | - | - | - | -
        · refine ⟨ts, hts, hsub.cons name, hval, ?_⟩
          intro n hn hdn lv2 hlv2
          rcases List.mem_cons.mp hn with rfl | hn
          · rw [hg] at hlv2
            cases hlv2
          · exact hmem n hn hdn lv2 hlv2
        · refine ⟨ts, hts, hsub.cons name, hval, ?_⟩
          intro n hn hdn lv2 hlv2
          rcases List.mem_cons.mp hn with rfl | hn
          · rw [hg] at hlv2
            cases hlv2
          · exact hmem n hn hdn lv2 hlv2
        · refine ⟨ts, hts, hsub.cons name, hval, ?_⟩
          intro n hn hdn lv2 hlv2
          rcases List.mem_cons.mp hn with rfl | hn
          · rw [hg] at hlv2
            cases hlv2
          · exact hmem n hn hdn lv2 hlv2
        · refine ⟨ts, hts, hsub.cons name, hval, ?_⟩
          intro n hn hdn lv2 hlv2
          rcases List.mem_cons.mp hn with rfl | hn
          · rw [hg] at hlv2
            cases hlv2
          · exact hmem n hn hdn lv2 hlv2
        · refine ⟨ts, hts, hsub.cons name, hval, ?_⟩
          intro n hn hdn lv2 hlv2
          rcases List.mem_cons.mp hn with rfl | hn
          · rw [hg] at hlv2
            cases hlv2
          · exact hmem n hn hdn lv2 hlv2
        · refine ⟨ts, hts, hsub.cons name, hval, ?_⟩
          intro n hn hdn lv2 hlv2
          rcases List.mem_cons.mp hn with rfl | hn
          · rw [hg] at hlv2
            cases hlv2
          · exact hmem n hn hdn lv2 hlv2
        · exact absurd hg (hc name (List.mem_cons_self name rest) hd)
    · rw [Bool.not_eq_true] at hd
      rw [hd]
      simp only [Bool.not_false]
      rw [if_pos trivial]
      refine ⟨ts, hts, hsub.cons name, hval, ?_⟩
      intro n hn hdn lv2 hlv2
      rcases List.mem_cons.mp hn with rfl | hn
      · rw [hd] at hdn
        cases hdn
      · exact hmem n hn hdn lv2 hlv2

/-- Claim C9: when the templates root is a directory and no child's scan
raises a YAML error, `list_templates` returns a list sorted by template id
that contains exactly the directory children with a latest version; when the
root does not exist, the call fails with FileNotFoundError. -/
theorem claim9_list_templates (st : Store) (fs : FS) (now : Nat) :
    (fs.isDir st.base_path = true →
      (∀ n ∈ fs.childNames st.base_path,
        fs.isDir (st.base_path ++ [n]) = true →
        st.get_latest_version fs n now ≠ .err .yamlErr) →
      ∃ ts, st.list_templates fs now = .ok ts ∧
        List.Pairwise (fun a b => strLeB a.id b.id = true) ts ∧
        (∀ t ∈ ts, ∃ lv, st.get_latest_version fs t.id now = .ok lv ∧
          t.latest_version = lv.version) ∧
        (∀ n ∈ fs.childNames st.base_path,
          fs.isDir (st.base_path ++ [n]) = true →
          ∀ lv, st.get_latest_version fs n now = .ok lv →
            n ∈ ts.map Template.id)) ∧
    (fs.pathExists st.base_path = false →
      st.list_templates fs now = .err .fileNotFound) := by
  constructor
  · intro hdir hclean
    obtain ⟨ts, hts, hsub, hval, hmem⟩ := collect_templates_facts st fs now _ hclean
    refine ⟨ts, ?_, ?_, hval, hmem⟩
    · rw [Store.list_templates, FS.iterdirSorted, hdir]
      rw [if_pos rfl]
      exact hts
    · have hnames := childNames_sorted fs st.base_path
      have hsorted := List.Pairwise.sublist hsub hnames
      rw [List.pairwise_map] at hsorted
      exact hsorted
  · intro habs
    rw [FS.pathExists] at habs
    have hd : fs.isDir st.base_path = false := by
      cases hdd : fs.isDir st.base_path
      · rfl
      · rw [hdd, Bool.true_or] at habs
        cases habs
    have hf : fs.isFile st.base_path = false := by
      cases hff : fs.isFile st.base_path
      · rfl
      · rw [hff, Bool.or_true] at habs
        cases habs
    rw [Store.list_templates, FS.iterdirSorted, hd, hf]
    rfl

/-- Claim C9 (counterexample): on a filesystem without the templates root,
`list_templates` fails as a whole with FileNotFoundError. -/
theorem claim9_counterexample :
    Store.list_templates { base_path := ["b"] } ⟨[], []⟩ 0 =
      .err .fileNotFound := by
  decide

/-- Executable check for claim C9 on a concrete store state. -/
theorem claim9_witness :
    ∃ ts, exStore.list_templates exFs 0 = .ok ts ∧
      List.Pairwise (fun a b => strLeB a.id b.id = true) ts ∧
      (∀ t ∈ ts, ∃ lv, exStore.get_latest_version exFs t.id 0 = .ok lv ∧
        t.latest_version = lv.version) ∧
      (∀ n ∈ exFs.childNames exStore.base_path,
        exFs.isDir (exStore.base_path ++ [n]) = true →
        ∀ lv, exStore.get_latest_version exFs n 0 = .ok lv →
          n ∈ ts.map Template.id) :=
  (claim9_list_templates exStore exFs 0).1 (by decide) (by decide)

end PromptDepot
